import Mathlib

/-!
# Scope analysis of govaluate: a shallow embedding

The development follows `EvaluableExpression.go`: the prefix scopes
(`StringScope`, `Cmp`), the ordering used by `sort.Sort` (`Less`), the two merge
algorithms (`Union`, `Intersection`), the tree walk `evalScopeStage`, and the value
evaluator `evaluateStage` with its short-circuit block and its type checks.

A Go string is a finite sequence of bytes; it is modelled by the list of its
bytes, each byte a natural number.  Go compares strings bytewise, and
`strings.HasPrefix` compares the leading bytes.  A `*StringScope` is modelled by
the value it points to: the algorithms only ever read the `Start` field.
-/

namespace Govaluate

/-! ## Go strings and scopes -/

/-- A Go string, as the list of its bytes. -/
abbrev GoString := List Nat

/-- Go's `<` on strings: bytewise lexicographic order, a proper prefix being smaller. -/
def strLt : GoString → GoString → Bool
  | [], [] => false
  | [], _ :: _ => true
  | _ :: _, [] => false
  | a :: as, b :: bs => if a < b then true else if b < a then false else strLt as bs

/-- Go's `strings.HasPrefix(s, prefix)`:
`len(s) >= len(prefix) && s[:len(prefix)] == prefix`. -/
def HasPrefix (s pre : GoString) : Bool :=
  decide (pre.length ≤ s.length) && (s.take pre.length == pre)

/-- The struct `StringScope` of the source: the single field `Start`. -/
structure StringScope where
  Start : GoString
  deriving DecidableEq, Repr

/-- The package variable `MaxScope`: the scope whose `Start` is the empty string. -/
def MaxScope : StringScope := ⟨[]⟩

/-- The method `Cmp` of the source (the receiver is `left`); both scopes are non-nil. -/
def StringScope.Cmp (left right : StringScope) : Int :=
  if left.Start = right.Start then 0
  else if left.Start = [] then 1
  else if right.Start = [] then -1
  else if HasPrefix left.Start right.Start then -1
  else if HasPrefix right.Start left.Start then 1
  else 2

/-- The slice type `StringScopes`. -/
abbrev StringScopes := List StringScope

/-- The method `Less` of the source, on the two elements it reads. -/
def Less (a b : StringScope) : Bool :=
  if a.Start = [] then false
  else if b.Start = [] then true
  else strLt a.Start b.Start

/-- The order `sort.Sort` establishes: `b` may follow `a` when `b` is not `Less`
than `a`. -/
def notAfter (a b : StringScope) : Prop := Less b a = false

instance : DecidableRel notAfter := fun a b => by
  unfold notAfter
  infer_instance

/-- The effect of `sort.Sort` on a slice: the elements in an order in which no
element is `Less` than an earlier one.  `Less` is a strict total order on the
values of `Start`, so every sorting procedure produces this same list of values
(`sorted_perm_unique` below). -/
def sortScopes (t : StringScopes) : StringScopes :=
  t.insertionSort notAfter

/-! ## The merge algorithms `Union` and `Intersection` -/

/-- One round of the comparison against `union[len(union)-1]` in `Union`:
an empty `union` takes the candidate; otherwise the candidate is appended when
`Cmp` is 2, overwrites the last slot when `Cmp` is -1, and is dropped otherwise. -/
def unionStep (union : StringScopes) (d : StringScope) : StringScopes :=
  match union.getLast? with
  | none => union ++ [d]
  | some last =>
    if last.Cmp d = 2 then union ++ [d]
    else if last.Cmp d = -1 then union.dropLast ++ [d]
    else union

/-- The second loop of `Union`, over the rest `needProcess[needProcessIdx:]` of the
stream that is not exhausted. -/
def unionRest (needProcess : StringScopes) (union : StringScopes) : StringScopes :=
  needProcess.foldl unionStep union

/-- The first loop of `Union` while the head `t` of `t[tStart:]` stays the same and
`rhs[rStart:]` is consumed; `next` is the loop after `tStart++`. -/
def unionLoopRhs (t : StringScope) (ts : StringScopes)
    (next : StringScopes → StringScopes → StringScopes) :
    StringScopes → StringScopes → StringScopes
  | [], union => unionRest (t :: ts) union
  | r :: rs, union =>
    if t.Start = [] ∨ r.Start = [] then [MaxScope]
    else if strLt t.Start r.Start then next (r :: rs) (unionStep union t)
    else unionLoopRhs t ts next rs (unionStep union r)

/-- The first loop of `Union`; the two lists are `t[tStart:]` and `rhs[rStart:]`.
Each round advances one of the two indices, so the recursion is on the rest of `t`,
with `unionLoopRhs` for the rounds that advance `rStart`. -/
def unionLoop : StringScopes → StringScopes → StringScopes → StringScopes
  | [], rhs, union => unionRest rhs union
  | t :: ts, rhs, union => unionLoopRhs t ts (unionLoop ts) rhs union

/-- The method `Union` of the source. -/
def Union (t rhs : StringScopes) : StringScopes :=
  unionLoop (sortScopes t) (sortScopes rhs) []

/-- The accumulating slice `union` of `Intersection`.  It is seeded with `&MaxScope`
and afterwards only grows or has its last slot overwritten, so it is never empty:
it is carried as the elements before the last one and the last one. -/
structure Acc where
  init : StringScopes
  last : StringScope

/-- The slice an accumulator stands for. -/
def Acc.toScopes (u : Acc) : StringScopes := u.init ++ [u.last]

/-- One round of the comparison against `union[len(union)-1]` in `Intersection`:
the candidate is appended when `Cmp` is 2, overwrites the last slot when `Cmp` is 1,
and is dropped otherwise. -/
def interStep (union : Acc) (d : StringScope) : Acc :=
  if union.last.Cmp d = 2 then ⟨union.init ++ [union.last], d⟩
  else if union.last.Cmp d = 1 then ⟨union.init, d⟩
  else union

/-- The second loop of `Intersection`. -/
def interRest (needProcess : StringScopes) (union : Acc) : Acc :=
  needProcess.foldl interStep union

/-- The first loop of `Intersection` while the head `t` of `t[tStart:]` stays the
same and `rhs[rStart:]` is consumed; `next` is the loop after `tStart++`. -/
def interLoopRhs (t : StringScope) (ts : StringScopes)
    (next : StringScopes → Acc → Acc) : StringScopes → Acc → Acc
  | [], union => interRest (t :: ts) union
  | r :: rs, union =>
    if t.Start = [] then next (r :: rs) union
    else if r.Start = [] then interLoopRhs t ts next rs union
    else if strLt t.Start r.Start then next (r :: rs) (interStep union t)
    else interLoopRhs t ts next rs (interStep union r)

/-- The first loop of `Intersection`; the two lists are `t[tStart:]` and
`rhs[rStart:]`.  The recursion is on the rest of `t`, with `interLoopRhs` for the
rounds that advance `rStart`. -/
def interLoop : StringScopes → StringScopes → Acc → Acc
  | [], rhs, union => interRest rhs union
  | t :: ts, rhs, union => interLoopRhs t ts (interLoop ts) rhs union

/-- The method `Intersection` of the source. -/
def Intersection (t rhs : StringScopes) : StringScopes :=
  (interLoop (sortScopes t) (sortScopes rhs) ⟨[], MaxScope⟩).toScopes

/-! ## The stage tree and the scope evaluator -/

/-- Modelled from the spec: the operator tags of a stage.  The enumeration
`OperatorSymbol` is declared outside the two source files; the tags the evaluators
name are listed, every other tag (arithmetic, comparison, ...) is `other`. -/
inductive OperatorSymbol where
  | AND
  | OR
  | NOOP
  | FUNCTIONAL
  | COALESCE
  | TERNARY_TRUE
  | TERNARY_FALSE
  | other (tag : Nat)
  deriving DecidableEq, Repr

/-- Modelled from the spec: the kinds of a token.  The enumeration `TokenKind` is
declared outside the two source files; the kinds the source names are listed. -/
inductive TokenKind where
  | FUNCTION
  | VARIABLE
  | other (tag : Nat)
  deriving DecidableEq, Repr

/-- A Go `interface{}` value, as far as the evaluators inspect it. -/
inductive Value where
  | nil
  | bool (b : Bool)
  | int (n : Int)
  | str (s : GoString)
  | other (tag : Nat)
  deriving DecidableEq, Repr

/-- Modelled from the spec: the token of a stage (the struct `ExpressionToken` is
declared outside the two source files): its `Kind`, and for the `Value` of a function
token the name that `runtime.FuncForPC(reflect.ValueOf(Value).Pointer()).Name()`
reports. -/
structure ExpressionToken where
  Kind : TokenKind
  funcName : GoString
  deriving DecidableEq, Repr

/-- Modelled from the spec: the call metadata `GetFunctionInfo` returns: the resolved
name, the ordered tags `Var` of the arguments, and the values `Params` aligned with
them. -/
structure FunctionCallInfo where
  Name : GoString
  Var : List GoString
  Params : List Value
  deriving DecidableEq, Repr

/-- The errors of the scope evaluator, and the run-time panics of Go. -/
inductive GoError where
  /-- the package variable `InValidError` -/
  | InValidError
  /-- the value of `errors.New("eval scope is error")` -/
  | evalScopeError
  /-- an error returned by `GetFunctionInfo` -/
  | functionInfoError (code : Nat)
  /-- the panic of a nil pointer dereference -/
  | nilDereference
  /-- the panic of an index out of range -/
  | indexOutOfRange
  deriving DecidableEq, Repr

/-- Modelled from the spec: a `*evaluationStage` (the struct and its method
`GetFunctionInfo` are declared outside the two source files): the nil pointer, or a
stage with the fields the scope evaluator reads, its symbol, its two children and its
token, and with what `GetFunctionInfo` returns on it. -/
inductive evaluationStage where
  | nil : evaluationStage
  | stage (symbol : OperatorSymbol) (leftStage rightStage : evaluationStage)
      (token : ExpressionToken) (functionInfo : Except GoError FunctionCallInfo) :
      evaluationStage

/-- The test `stage == nil`. -/
def evaluationStage.isNil : evaluationStage → Bool
  | .nil => true
  | .stage _ _ _ _ _ => false

/-- Go's `strings.Contains(s, substr)`: `substr` starts at some position of `s`. -/
def Contains (s substr : GoString) : Bool := s.tails.any (fun t => HasPrefix t substr)

/-- The string `"key"`. -/
def keyTag : GoString := [107, 101, 121]

/-- The evaluation of a child: a nil child leaves the variable nil (`none`), another
child gives its result or its error. -/
def evalChild (child : evaluationStage) (result : Except GoError StringScopes) :
    Except GoError (Option StringScopes) :=
  if child.isNil then .ok none
  else
    match result with
    | .error err => .error err
    | .ok scopes => .ok (some scopes)

/-- The loop `for i, item := range info.Var` of `evalScopeStage`, from index `i` on;
when no item is `"key"` the loop ends and the function returns the universal scope. -/
def keyScope (Params : List Value) : Nat → List GoString → Except GoError StringScopes
  | _, [] => .ok [MaxScope]
  | i, item :: rest =>
    if item = keyTag then
      match Params[i]? with
      | none => .error .indexOutOfRange
      | some (.str tmpKey) => .ok [⟨tmpKey⟩]
      | some _ => .error .InValidError
    else keyScope Params (i + 1) rest

/-- The `switch stage.symbol` of `evalScopeStage`, after both children are evaluated;
`again` is the second evaluation of the right child in the `NOOP` case. -/
def evalScopeSwitch (functionName : GoString) (symbol : OperatorSymbol)
    (rightStage : evaluationStage) (token : ExpressionToken)
    (functionInfo : Except GoError FunctionCallInfo)
    (left right : Option StringScopes) (again : Except GoError StringScopes) :
    Except GoError StringScopes :=
  match symbol with
  | .AND =>
    match left, right with
    | some l, some r => .ok (Intersection l r)
    | _, _ => .error .evalScopeError
  | .OR =>
    match left, right with
    | some l, some r => .ok (Union l r)
    | _, _ => .error .evalScopeError
  | .NOOP => if rightStage.isNil then .error .InValidError else again
  | .FUNCTIONAL =>
    if token.Kind ≠ .FUNCTION then .error .InValidError
    else if Contains token.funcName functionName = false then .ok [MaxScope]
    else
      match functionInfo with
      | .error err => .error err
      | .ok info => keyScope info.Params 0 info.Var
  | _ => .ok [MaxScope]

/-- The method `evalScopeStage` of the source. -/
def evalScopeStage (functionName : GoString) : evaluationStage → Except GoError StringScopes
  | .nil => .error .nilDereference
  | .stage symbol leftStage rightStage token functionInfo =>
    match evalChild leftStage (evalScopeStage functionName leftStage) with
    | .error err => .error err
    | .ok left =>
      match evalChild rightStage (evalScopeStage functionName rightStage) with
      | .error err => .error err
      | .ok right =>
        evalScopeSwitch functionName symbol rightStage token functionInfo left right
          (evalScopeStage functionName rightStage)

/-- The struct `EvaluableExpression` of the source, with the fields the evaluators
read. -/
structure EvaluableExpression where
  ChecksTypes : Bool
  evaluationStages : evaluationStage

/-- The method `EvaluateScope` of the source. -/
def EvaluateScope (this : EvaluableExpression) (funcName : GoString) :
    Except GoError StringScopes :=
  evalScopeStage funcName this.evaluationStages

/-! ## The notions the properties are stated with -/

/-- The set of keys denoted by a scope: all strings that have `Start` as a prefix. -/
def keySet (s : StringScope) : Set GoString := {k | HasPrefix k s.Start = true}

/-- The keys a list of scopes denotes: those that start with the `Start` of a member. -/
def covers (l : StringScopes) (k : GoString) : Prop := ∃ s ∈ l, HasPrefix k s.Start = true

instance (l : StringScopes) (k : GoString) : Decidable (covers l k) := by
  unfold covers
  infer_instance

/-- A normalized list: no member's `Start` is a strict prefix of another member's. -/
def Normalized (l : StringScopes) : Prop := ∀ x ∈ l, ∀ y ∈ l, x.Cmp y ≠ 1

instance (l : StringScopes) : Decidable (Normalized l) := by
  unfold Normalized
  infer_instance

/-- The `Start` values of a list of scopes, in the order of the list. -/
def starts (l : StringScopes) : List GoString := l.map StringScope.Start

/-- The literal aligned with the first role tagged `"key"`, when it is a string. -/
def keyLiteral : List GoString → List Value → Option GoString
  | [], _ => none
  | _ :: _, [] => none
  | role :: roles, lit :: lits =>
    if role = keyTag then
      match lit with
      | .str p => some p
      | _ => none
    else keyLiteral roles lits

/-- The prefix constraints of a tree, read off the claim: a function-call stage whose
name contains the filter and whose `"key"`-tagged literal is the string `p` is
satisfied by the keys with prefix `p`, an `AND` stage by the keys satisfying both
children, an `OR` stage by the keys satisfying either child, a `NOOP` stage by the keys
satisfying its right child, every other stage by all keys. -/
def satisfies (filter : GoString) : evaluationStage → GoString → Bool
  | .nil, _ => true
  | .stage symbol leftStage rightStage token functionInfo, k =>
    match symbol with
    | .AND => satisfies filter leftStage k && satisfies filter rightStage k
    | .OR => satisfies filter leftStage k || satisfies filter rightStage k
    | .NOOP => satisfies filter rightStage k
    | .FUNCTIONAL =>
      if Contains token.funcName filter then
        match functionInfo with
        | .ok info =>
          match keyLiteral info.Var info.Params with
          | some p => HasPrefix k p
          | none => true
        | .error _ => true
      else true
    | _ => true

/-- The lists the scope evaluator produces: normalized and not empty. -/
def Good (l : StringScopes) : Prop := Normalized l ∧ l ≠ []

/-! ## Auxiliary definitions of the proofs -/

/-- The receiver's `Start` is not greater than the argument's, in Go's string order. -/
def leS (x y : StringScope) : Prop := strLt y.Start x.Start = false

/-- The receiver's `Start` is smaller than the argument's, in Go's string order. -/
def ltS (x y : StringScope) : Prop := strLt x.Start y.Start = true

/-- The scopes that are not the universal scope. -/
def nonMax (x : StringScope) : Bool := decide (x.Start ≠ [])

/-- The slice `interStep` builds from the last element `last` of the accumulator and
the candidates still to come, apart from the elements before `last`. -/
def keepSpecific (last : StringScope) : StringScopes → StringScopes
  | [] => [last]
  | c :: L =>
    if last.Cmp c = 2 then last :: keepSpecific c L
    else if last.Cmp c = 1 then keepSpecific c L
    else keepSpecific last L

/-- The slice `unionStep` builds from the last element `last` of the slice and the
candidates still to come, apart from the elements before `last`. -/
def keepGeneral (last : StringScope) : StringScopes → StringScopes
  | [] => [last]
  | c :: L =>
    if last.Cmp c = 2 then last :: keepGeneral c L
    else if last.Cmp c = -1 then keepGeneral c L
    else keepGeneral last L

/-! ## Expressions of the test suite -/

/-- The name the run time reports for the function `prefix` of the test suite. -/
def prefixName : GoString :=
  [103, 111, 118, 97, 108, 117, 97, 116, 101, 46, 112, 114, 101, 102, 105, 120]

/-- The filter `".prefix"` of the test suite. -/
def prefixFilter : GoString := [46, 112, 114, 101, 102, 105, 120]

/-- A leaf that is no function call, such as the variable `putTime` or a literal. -/
def valueLeaf : evaluationStage :=
  .stage (.other 0) .nil .nil ⟨.VARIABLE, []⟩ (.error (.functionInfoError 0))

/-- A comparison such as `putTime >= 10`. -/
def comparisonStage : evaluationStage :=
  .stage (.other 1) valueLeaf valueLeaf ⟨.other 0, []⟩ (.error (.functionInfoError 0))

/-- The call `prefix(key, p)`: the role `"key"` is aligned with the literal `p`. -/
def prefixCall (p : GoString) : evaluationStage :=
  .stage .FUNCTIONAL .nil valueLeaf ⟨.FUNCTION, prefixName⟩
    (.ok ⟨prefixName, [keyTag], [.str p]⟩)

/-- The expression `prefix(key, "xxx") && putTime >= 10` of the test suite. -/
def prefixAndTime : EvaluableExpression :=
  ⟨true, .stage .AND (prefixCall [120, 120, 120]) comparisonStage ⟨.other 0, []⟩
    (.error (.functionInfoError 0))⟩

/-- The expression
`(prefix(key, "xxx") && putTime >= 10) && (putTime <= 100 && prefix(key, "7/"))` of the
test suite; the parentheses are `NOOP` stages over their right child. -/
def twoPrefixes : EvaluableExpression :=
  ⟨true,
    .stage .AND
      (.stage .NOOP .nil
        (.stage .AND (prefixCall [120, 120, 120]) comparisonStage ⟨.other 0, []⟩
          (.error (.functionInfoError 0)))
        ⟨.other 0, []⟩ (.error (.functionInfoError 0)))
      (.stage .NOOP .nil
        (.stage .AND comparisonStage (prefixCall [55, 47]) ⟨.other 0, []⟩
          (.error (.functionInfoError 0)))
        ⟨.other 0, []⟩ (.error (.functionInfoError 0)))
      ⟨.other 0, []⟩ (.error (.functionInfoError 0))⟩

/-! ## The value evaluator -/

/-- The errors of the value evaluator, and the run-time panic of Go it can meet. -/
inductive EvalError where
  /-- the value of `errors.New(fmt.Sprintf(format, value, symbol.String()))` -/
  | typeError (format : GoString) (value : Value) (symbol : OperatorSymbol)
  /-- an error returned by an operator -/
  | operatorError (code : Nat)
  /-- the panic of a nil pointer dereference -/
  | nilDereference
  deriving DecidableEq, Repr

/-- A Go result pair `(interface{}, error)`; the error `nil` is `none`. -/
abbrev Result := Value × Option EvalError

/-- Modelled from the spec: the capability `Parameters`, declared outside the two
source files: it resolves a name to a value or fails. -/
structure Parameters where
  Get : GoString → Result

/-- Modelled from the spec: a `*evaluationStage` with the fields the value evaluator
reads (the struct is declared outside the two source files): the nil pointer, or a
stage with its symbol, its two children, its operator, its type checks (a missing
check is `none`) and its error format. -/
inductive ValueStage where
  | nil : ValueStage
  | stage (symbol : OperatorSymbol) (leftStage rightStage : ValueStage)
      (operator : Value → Value → Option Parameters → Result)
      (leftTypeCheck rightTypeCheck : Option (Value → Bool))
      (typeCheck : Option (Value → Value → Bool))
      (typeErrorFormat : GoString) : ValueStage

/-- The test `stage == nil`. -/
def ValueStage.isNil : ValueStage → Bool
  | .nil => true
  | .stage _ _ _ _ _ _ _ _ => false

/-- The constant `shortCircuitHolder`, as a value of type `int`. -/
def shortCircuitHolder : Value := .int (-1)

/-- Modelled from the spec: the method `isShortCircuitable`, declared outside the two
source files: the symbols of the short-circuit table are short-circuitable. -/
def isShortCircuitable (symbol : OperatorSymbol) : Bool :=
  match symbol with
  | .AND => true
  | .OR => true
  | .COALESCE => true
  | .TERNARY_TRUE => true
  | .TERNARY_FALSE => true
  | _ => false

/-- The function `typeCheck` of the source; the error `nil` is `none`. -/
def typeCheck (check : Option (Value → Bool)) (value : Value) (symbol : OperatorSymbol)
    (format : GoString) : Option EvalError :=
  match check with
  | none => none
  | some c => if c value then none else some (.typeError format value symbol)

/-- What the short-circuit block of `evaluateStage` does: it returns a value, or goes on
with the variable `right` it leaves. -/
inductive ShortCircuit where
  | returns (value : Value)
  | goesOn (right : Value)
  deriving DecidableEq, Repr

/-- The block `if stage.isShortCircuitable() { switch stage.symbol ... }` of
`evaluateStage`; before it `right` is nil. -/
def shortCircuit (symbol : OperatorSymbol) (left : Value) : ShortCircuit :=
  if isShortCircuitable symbol then
    match symbol with
    | .AND => if left = .bool false then .returns (.bool false) else .goesOn .nil
    | .OR => if left = .bool true then .returns (.bool true) else .goesOn .nil
    | .COALESCE => if left ≠ .nil then .returns left else .goesOn .nil
    | .TERNARY_TRUE => if left = .bool false then .goesOn shortCircuitHolder else .goesOn .nil
    | .TERNARY_FALSE => if left ≠ .nil then .goesOn shortCircuitHolder else .goesOn .nil
    | _ => .goesOn .nil
  else .goesOn .nil

/-- The block `if this.ChecksTypes { ... }` of `evaluateStage` and the final call of the
operator. -/
def checkAndApply (ChecksTypes : Bool) (symbol : OperatorSymbol)
    (operator : Value → Value → Option Parameters → Result)
    (leftTypeCheck rightTypeCheck : Option (Value → Bool))
    (typeCheckBoth : Option (Value → Value → Bool)) (typeErrorFormat : GoString)
    (left right : Value) (parameters : Option Parameters) : Result :=
  if ChecksTypes then
    match typeCheckBoth with
    | none =>
      match typeCheck leftTypeCheck left symbol typeErrorFormat with
      | some err => (.nil, some err)
      | none =>
        match typeCheck rightTypeCheck right symbol typeErrorFormat with
        | some err => (.nil, some err)
        | none => operator left right parameters
    | some check =>
      if check left right = false then
        (.nil, some (.typeError typeErrorFormat left symbol))
      else operator left right parameters
  else operator left right parameters

/-- The evaluation of the left child in `evaluateStage`: a nil child leaves `left`
nil. -/
def evalLeft (leftStage : ValueStage) (result : Result) : Result :=
  if leftStage.isNil then (.nil, none) else result

/-- The evaluation of the right child in `evaluateStage`: it takes place when `right`
is not the holder and the child is not nil. -/
def evalRight (right : Value) (rightStage : ValueStage) (result : Result) : Result :=
  if right ≠ shortCircuitHolder ∧ rightStage.isNil = false then result else (right, none)

/-- The method `evaluateStage` of the source; `this` gives `ChecksTypes`. -/
def evaluateStage (this : EvaluableExpression) (parameters : Option Parameters) :
    ValueStage → Result
  | .nil => (.nil, some .nilDereference)
  | .stage symbol leftStage rightStage operator leftTypeCheck rightTypeCheck typeCheckBoth
      typeErrorFormat =>
    match evalLeft leftStage (evaluateStage this parameters leftStage) with
    | (_, some err) => (.nil, some err)
    | (left, none) =>
      match shortCircuit symbol left with
      | .returns value => (value, none)
      | .goesOn right =>
        match evalRight right rightStage (evaluateStage this parameters rightStage) with
        | (_, some err) => (.nil, some err)
        | (right, none) =>
          checkAndApply this.ChecksTypes symbol operator leftTypeCheck rightTypeCheck
            typeCheckBoth typeErrorFormat left right parameters

/-! ## The notions the properties of the evaluators are stated with -/

/-- A check that is present and rejects the value. -/
def rejects (check : Option (Value → Bool)) (value : Value) : Bool :=
  match check with
  | none => false
  | some c => !c value

/-- The type checks of a stage reject the operands: the joint check when it is set,
otherwise the left or the right check. -/
def checksReject (leftTypeCheck rightTypeCheck : Option (Value → Bool))
    (typeCheckBoth : Option (Value → Value → Bool)) (left right : Value) : Bool :=
  match typeCheckBoth with
  | some check => !check left right
  | none => rejects leftTypeCheck left || rejects rightTypeCheck right

/-- The trees without a matching call and without a malformed stage: every `AND` and
`OR` stage has both children, every `NOOP` stage a right child, every `FUNCTIONAL` stage
a `FUNCTION` token and a name that does not contain the filter.  The nil pointer, an
absent child, meets the conditions. -/
def unconstrained (filter : GoString) : evaluationStage → Bool
  | .nil => true
  | .stage symbol leftStage rightStage token _ =>
    unconstrained filter leftStage && unconstrained filter rightStage &&
      match symbol with
      | .AND => !leftStage.isNil && !rightStage.isNil
      | .OR => !leftStage.isNil && !rightStage.isNil
      | .NOOP => !rightStage.isNil
      | .FUNCTIONAL => decide (token.Kind = .FUNCTION) && !Contains token.funcName filter
      | _ => true

/-- The outcome of the loop over `info.Var` at the literal of the first `"key"` role. -/
def literalScope (literal : Option Value) : Except GoError StringScopes :=
  match literal with
  | none => .error .indexOutOfRange
  | some (.str s) => .ok [⟨s⟩]
  | some _ => .error .InValidError

/-- The value the error of a failed type check cites: the left operand for the joint
check and for the left check, the right operand for the right check. -/
def offendingValue (leftTypeCheck : Option (Value → Bool))
    (typeCheckBoth : Option (Value → Value → Bool)) (left right : Value) : Value :=
  match typeCheckBoth with
  | some _ => left
  | none => if rejects leftTypeCheck left then left else right

/-- The assumption on the operator of the condition stage of a ternary: it returns its
right operand when the left operand is `true`, and nil otherwise. -/
def conditionOperator (operator : Value → Value → Option Parameters → Result) : Prop :=
  (∀ right parameters, operator (.bool true) right parameters = (right, none)) ∧
    ∀ left right parameters, left ≠ .bool true → operator left right parameters = (.nil, none)

/-- The assumption on the operator of the branch stage of a ternary: it returns its left
operand when that is not nil, and its right operand otherwise. -/
def branchOperator (operator : Value → Value → Option Parameters → Result) : Prop :=
  (∀ left right parameters, left ≠ .nil → operator left right parameters = (left, none)) ∧
    ∀ right parameters, operator .nil right parameters = (right, none)

/-- The type checks and the error format of a stage. -/
structure TypeChecks where
  leftTypeCheck : Option (Value → Bool)
  rightTypeCheck : Option (Value → Bool)
  typeCheck : Option (Value → Value → Bool)
  typeErrorFormat : GoString

/-- The stages of a ternary `c ? X : Y`: a `TERNARY_FALSE` stage whose left child is
the `TERNARY_TRUE` stage over `c` and `X`, and whose right child is `Y`. -/
def ternary (c X Y : ValueStage) (condition branch : Value → Value → Option Parameters → Result)
    (conditionChecks branchChecks : TypeChecks) : ValueStage :=
  .stage .TERNARY_FALSE
    (.stage .TERNARY_TRUE c X condition conditionChecks.leftTypeCheck
      conditionChecks.rightTypeCheck conditionChecks.typeCheck conditionChecks.typeErrorFormat)
    Y branch branchChecks.leftTypeCheck branchChecks.rightTypeCheck branchChecks.typeCheck
    branchChecks.typeErrorFormat

/-! ## Stages for the examples of the value evaluator -/

/-- A leaf whose operator returns the value `v`. -/
def literalStage (v : Value) : ValueStage :=
  .stage (.other 0) .nil .nil (fun _ _ _ => (v, none)) none none none []

/-- A leaf whose operator fails. -/
def failingStage : ValueStage :=
  .stage (.other 0) .nil .nil (fun _ _ _ => (.nil, some (.operatorError 0))) none none none []

/-- An operator of a condition stage: the right operand when the left one is `true`. -/
def ternaryIf (left right : Value) (_ : Option Parameters) : Result :=
  if left = .bool true then (right, none) else (.nil, none)

/-- An operator of a branch stage: the left operand when it is not nil. -/
def ternaryElse (left right : Value) (_ : Option Parameters) : Result :=
  if left ≠ .nil then (left, none) else (right, none)

/-- A stage without type checks. -/
def noChecks : TypeChecks := ⟨none, none, none, []⟩

/-- An expression that checks types. -/
def checkingExpression : EvaluableExpression := ⟨true, .nil⟩

/-! ## Go strings: order and prefixes -/

theorem hasPrefix_iff (s p : GoString) : HasPrefix s p = true ↔ p <+: s := by
  unfold HasPrefix
  rw [Bool.and_eq_true, decide_eq_true_eq, beq_iff_eq]
  constructor
  · rintro ⟨_, h⟩
    exact List.prefix_iff_eq_take.mpr h.symm
  · intro h
    exact ⟨h.length_le, (List.prefix_iff_eq_take.mp h).symm⟩

theorem nil_pre (s : GoString) : [] <+: s := ⟨s, rfl⟩

theorem prefix_antisymm {a b : GoString} (h1 : a <+: b) (h2 : b <+: a) : a = b :=
  h1.eq_of_length_le h2.length_le

theorem strLt_irrefl (a : GoString) : strLt a a = false := by
  induction a with
  | nil => rfl
  | cons x xs ih => simp [strLt, ih]

theorem strLt_asymm : ∀ (a b : GoString), strLt a b = true → strLt b a = false
  | [], [], h => by simp [strLt] at h
  | [], _ :: _, _ => by simp [strLt]
  | _ :: _, [], h => by simp [strLt] at h
  | x :: xs, y :: ys, h => by
    simp only [strLt] at h ⊢
    by_cases h1 : x < y
    · have h2 : ¬ y < x := by omega
      simp [h2, h1]
    · by_cases h2 : y < x
      · simp [h1, h2] at h
      · simp only [h1, h2, if_false] at h ⊢
        exact strLt_asymm xs ys h

theorem strLt_trans : ∀ (a b c : GoString), strLt a b = true → strLt b c = true →
    strLt a c = true
  | [], _, [], _, h2 => by cases ‹GoString› <;> simp [strLt] at h2
  | [], _, _ :: _, _, _ => by simp [strLt]
  | _ :: _, [], _, h1, _ => by simp [strLt] at h1
  | _ :: _, _ :: _, [], _, h2 => by simp [strLt] at h2
  | x :: xs, y :: ys, z :: zs, h1, h2 => by
    simp only [strLt] at h1 h2 ⊢
    by_cases hxy : x < y
    · by_cases hyz : y < z
      · have : x < z := by omega
        simp [this]
      · by_cases hzy : z < y
        · simp [hyz, hzy] at h2
        · have : x < z := by omega
          simp [this]
    · by_cases hyx : y < x
      · simp [hxy, hyx] at h1
      · simp only [hxy, hyx, if_false] at h1
        have hxy' : x = y := by omega
        subst hxy'
        by_cases hxz : x < z
        · simp [hxz]
        · by_cases hzx : z < x
          · simp [hxz, hzx] at h2
          · simp only [hxz, hzx, if_false] at h2 ⊢
            exact strLt_trans xs ys zs h1 h2

theorem strLt_total : ∀ (a b : GoString), strLt a b = true ∨ a = b ∨ strLt b a = true
  | [], [] => Or.inr (Or.inl rfl)
  | [], _ :: _ => Or.inl (by simp [strLt])
  | _ :: _, [] => Or.inr (Or.inr (by simp [strLt]))
  | x :: xs, y :: ys => by
    simp only [strLt]
    by_cases hxy : x < y
    · simp [hxy]
    · by_cases hyx : y < x
      · simp [hyx]
      · have : x = y := by omega
        subst this
        simp only [hxy, if_false, List.cons.injEq, true_and]
        exact strLt_total xs ys

/-- A prefix is never greater than the string it starts. -/
theorem strLt_of_pre : ∀ (p s : GoString), p <+: s → strLt s p = false
  | [], s, _ => by cases s <;> simp [strLt]
  | x :: xs, [], h => by simp at h
  | x :: xs, y :: ys, h => by
    rw [List.cons_prefix_cons] at h
    obtain ⟨rfl, h⟩ := h
    simp [strLt, strLt_of_pre xs ys h]

theorem strLt_of_properPre (p s : GoString) (h : p <+: s) (hne : p ≠ s) :
    strLt p s = true := by
  rcases strLt_total p s with h1 | h1 | h1
  · exact h1
  · exact absurd h1 hne
  · rw [strLt_of_pre p s h] at h1
    exact absurd h1 (by simp)

/-- The strings that start with `p` are contiguous in the order: between `p` and a
string that starts with `p` every string starts with `p`. -/
theorem prefix_of_between : ∀ (p y z : GoString), p <+: z → strLt y p = false →
    strLt z y = false → p <+: y
  | [], y, _, _, _, _ => nil_pre _
  | a :: p, _, [], h, _, _ => by simp at h
  | a :: p, [], c :: z, _, h1, _ => by simp [strLt] at h1
  | a :: p, b :: y, c :: z, h, h1, h2 => by
    rw [List.cons_prefix_cons] at h
    obtain ⟨rfl, h⟩ := h
    simp only [strLt] at h1 h2
    by_cases hba : b < a
    · simp [hba] at h1
    · by_cases hab : a < b
      · simp [hab] at h2
      · have : a = b := by omega
        subst this
        simp only [hba, if_false] at h1 h2
        rw [List.cons_prefix_cons]
        exact ⟨rfl, prefix_of_between p y z h h1 h2⟩

/-! ## The order on scopes and `sort.Sort` -/

theorem strLe_trans (a b c : GoString) (h1 : strLt b a = false) (h2 : strLt c b = false) :
    strLt c a = false := by
  by_contra h
  rw [Bool.not_eq_false] at h
  rcases strLt_total a b with hab | hab | hab
  · rw [strLt_trans c a b h hab] at h2
    exact absurd h2 (by simp)
  · subst hab
    rw [h] at h2
    exact absurd h2 (by simp)
  · rw [hab] at h1
    exact absurd h1 (by simp)

theorem leS_refl (x : StringScope) : leS x x := strLt_irrefl _

theorem leS_trans {x y z : StringScope} (h1 : leS x y) (h2 : leS y z) : leS x z :=
  strLe_trans _ _ _ h1 h2

theorem leS_total (x y : StringScope) : leS x y ∨ leS y x := by
  unfold leS
  rcases strLt_total x.Start y.Start with h | h | h
  · exact Or.inl (strLt_asymm _ _ h)
  · rw [h]
    exact Or.inl (strLt_irrefl _)
  · exact Or.inr (strLt_asymm _ _ h)

theorem scope_ext {x y : StringScope} (h : x.Start = y.Start) : x = y := by
  cases x
  cases y
  simpa using h

theorem leS_antisymm {x y : StringScope} (h1 : leS x y) (h2 : leS y x) : x = y := by
  unfold leS at h1 h2
  rcases strLt_total x.Start y.Start with h | h | h
  · rw [h] at h2
    exact absurd h2 (by simp)
  · exact scope_ext h
  · rw [h] at h1
    exact absurd h1 (by simp)

theorem leS_of_lt {x y : StringScope} (h : strLt x.Start y.Start = true) : leS x y :=
  strLt_asymm _ _ h

theorem lt_of_leS_of_ne {x y : StringScope} (h : leS x y) (hne : x.Start ≠ y.Start) :
    strLt x.Start y.Start = true := by
  rcases strLt_total x.Start y.Start with h1 | h1 | h1
  · exact h1
  · exact absurd h1 hne
  · unfold leS at h
    rw [h1] at h
    exact absurd h (by simp)

theorem leS_of_not_lt {x y : StringScope} (h : ¬ strLt x.Start y.Start = true) : leS y x := by
  unfold leS
  simpa using h

theorem max_leS (x : StringScope) : leS MaxScope x := by
  unfold leS MaxScope
  cases x.Start <;> simp [strLt]

theorem notAfter_iff (x y : StringScope) :
    notAfter x y ↔ y.Start = [] ∨ (x.Start ≠ [] ∧ leS x y) := by
  unfold notAfter Less leS
  split_ifs with h1 h2
  · simp [h1]
  · simp [h1, h2]
  · simp [h1, h2]

theorem notAfter_total (x y : StringScope) : notAfter x y ∨ notAfter y x := by
  rw [notAfter_iff, notAfter_iff]
  by_cases hx : x.Start = []
  · exact Or.inr (Or.inl hx)
  · by_cases hy : y.Start = []
    · exact Or.inl (Or.inl hy)
    · rcases leS_total x y with h | h
      · exact Or.inl (Or.inr ⟨hx, h⟩)
      · exact Or.inr (Or.inr ⟨hy, h⟩)

theorem notAfter_trans {x y z : StringScope} (h1 : notAfter x y) (h2 : notAfter y z) :
    notAfter x z := by
  rw [notAfter_iff] at h1 h2 ⊢
  rcases h2 with h2 | ⟨hy, h2⟩
  · exact Or.inl h2
  · rcases h1 with h1 | ⟨hx, h1⟩
    · exact absurd h1 hy
    · exact Or.inr ⟨hx, leS_trans h1 h2⟩

theorem notAfter_antisymm {x y : StringScope} (h1 : notAfter x y) (h2 : notAfter y x) :
    x = y := by
  rw [notAfter_iff] at h1 h2
  rcases h1 with h1 | ⟨hx, h1⟩
  · rcases h2 with h2 | ⟨hy, _⟩
    · exact scope_ext (h2.trans h1.symm)
    · exact absurd h1 hy
  · rcases h2 with h2 | ⟨_, h2⟩
    · exact absurd h2 hx
    · exact leS_antisymm h1 h2

theorem sortScopes_sorted (t : StringScopes) : (sortScopes t).Pairwise notAfter :=
  haveI : IsTotal StringScope notAfter := ⟨notAfter_total⟩
  haveI : IsTrans StringScope notAfter := ⟨fun _ _ _ => notAfter_trans⟩
  List.sorted_insertionSort notAfter t

theorem sortScopes_perm (t : StringScopes) : (sortScopes t).Perm t :=
  List.perm_insertionSort notAfter t

theorem mem_sortScopes {t : StringScopes} {x : StringScope} : x ∈ sortScopes t ↔ x ∈ t :=
  (sortScopes_perm t).mem_iff

/-- The list `sort.Sort` leaves is determined by the elements: any arrangement of the
slice in which no element is `Less` than an earlier one is `sortScopes`. -/
theorem sorted_perm_unique (t l : StringScopes) (hp : l.Perm t) (hs : l.Pairwise notAfter) :
    l = sortScopes t :=
  haveI : IsAntisymm StringScope notAfter := ⟨fun _ _ => notAfter_antisymm⟩
  List.eq_of_perm_of_sorted (hp.trans (sortScopes_perm t).symm) hs (sortScopes_sorted t)

/-! ## `Cmp` -/

theorem Cmp_eq_zero_iff (a b : StringScope) : a.Cmp b = 0 ↔ a.Start = b.Start := by
  unfold StringScope.Cmp
  split_ifs <;> simp_all

theorem Cmp_eq_neg_one_iff (a b : StringScope) :
    a.Cmp b = -1 ↔ a.Start ≠ b.Start ∧ b.Start <+: a.Start := by
  unfold StringScope.Cmp
  split_ifs with h1 h2 h3 h4 h5
  · simp [h1]
  · have : ¬ b.Start <+: a.Start := by
      intro h
      rw [h2, List.prefix_nil] at h
      exact h1 (h2.trans h.symm)
    simp [this]
  · simp [h2, h3]
  · simp [h1, (hasPrefix_iff _ _).mp h4]
  · have : ¬ b.Start <+: a.Start := fun h => h4 ((hasPrefix_iff _ _).mpr h)
    simp [this]
  · have : ¬ b.Start <+: a.Start := fun h => h4 ((hasPrefix_iff _ _).mpr h)
    simp [this]

theorem Cmp_eq_one_iff (a b : StringScope) :
    a.Cmp b = 1 ↔ a.Start ≠ b.Start ∧ a.Start <+: b.Start := by
  unfold StringScope.Cmp
  split_ifs with h1 h2 h3 h4 h5
  · simp [h1]
  · have h3 : ¬ b.Start = [] := fun h => h1 (h2.trans h.symm)
    simp [h2, h3]
  · have : ¬ a.Start <+: b.Start := by
      intro h
      rw [h3, List.prefix_nil] at h
      exact h1 (h.trans h3.symm)
    simp [this]
  · have : ¬ a.Start <+: b.Start := by
      intro h
      exact h1 (prefix_antisymm h ((hasPrefix_iff _ _).mp h4))
    simp [this]
  · simp [h1, (hasPrefix_iff _ _).mp h5]
  · have : ¬ a.Start <+: b.Start := fun h => h5 ((hasPrefix_iff _ _).mpr h)
    simp [this]

theorem Cmp_eq_two_iff (a b : StringScope) :
    a.Cmp b = 2 ↔ ¬ a.Start <+: b.Start ∧ ¬ b.Start <+: a.Start := by
  unfold StringScope.Cmp
  split_ifs with h1 h2 h3 h4 h5
  · simp [h1]
  · simp [h2]
  · simp [h3]
  · simp [(hasPrefix_iff _ _).mp h4]
  · simp [(hasPrefix_iff _ _).mp h5]
  · have h4' : ¬ b.Start <+: a.Start := fun h => h4 ((hasPrefix_iff _ _).mpr h)
    have h5' : ¬ a.Start <+: b.Start := fun h => h5 ((hasPrefix_iff _ _).mpr h)
    simp [h4', h5']

theorem Cmp_cases (a b : StringScope) :
    a.Cmp b = 0 ∨ a.Cmp b = -1 ∨ a.Cmp b = 1 ∨ a.Cmp b = 2 := by
  unfold StringScope.Cmp
  split_ifs <;> simp

/-! ## The first loop as a fold over the merged streams -/

theorem leS_of_notAfter {a b : StringScope} (h : notAfter a b) (hb : b.Start ≠ []) :
    leS a b := by
  rcases (notAfter_iff a b).mp h with h | h
  · exact absurd h hb
  · exact h.2

theorem nonMax_iff (x : StringScope) : nonMax x = true ↔ x.Start ≠ [] := by
  simp [nonMax]

theorem filter_sorted (l : StringScopes) (h : l.Pairwise notAfter) :
    (l.filter nonMax).Pairwise leS := by
  refine List.Pairwise.imp_of_mem ?_ (h.filter _)
  intro a b _ hb hab
  exact leS_of_notAfter hab ((nonMax_iff b).mp (List.mem_filter.mp hb).2)

/-- In two sorted streams, the smaller of the two heads is not greater than any
remaining element that is not the universal scope. -/
theorem head_leS_rest {h o : StringScope} {hs os : StringScopes}
    (hh : (h :: hs).Pairwise notAfter) (ho : (o :: os).Pairwise notAfter)
    (hle : leS h o) (x : StringScope) (hx : x ∈ hs ∨ x ∈ o :: os) (hxne : x.Start ≠ []) :
    leS h x := by
  rcases hx with hx | hx
  · exact leS_of_notAfter ((List.pairwise_cons.mp hh).1 x hx) hxne
  · rcases List.mem_cons.mp hx with rfl | hx
    · exact hle
    · exact leS_trans hle (leS_of_notAfter ((List.pairwise_cons.mp ho).1 x hx) hxne)

theorem interStep_max (u : Acc) (d : StringScope) (hd : d.Start = []) : interStep u d = u := by
  unfold interStep
  have h2 : u.last.Cmp d ≠ 2 := by
    intro h
    rw [Cmp_eq_two_iff, hd] at h
    exact h.2 (nil_pre _)
  have h1 : u.last.Cmp d ≠ 1 := by
    intro h
    rw [Cmp_eq_one_iff, hd, List.prefix_nil] at h
    exact h.1 h.2
  simp [h1, h2]

theorem foldl_interStep_filter (l : StringScopes) (u : Acc) :
    l.foldl interStep u = (l.filter nonMax).foldl interStep u := by
  induction l generalizing u with
  | nil => rfl
  | cons d l ih =>
    by_cases hd : d.Start = []
    · have : nonMax d = false := by simp [nonMax, hd]
      rw [List.filter_cons_of_neg (by simp [this]), List.foldl_cons, interStep_max u d hd, ih]
    · have : nonMax d = true := by simp [nonMax, hd]
      rw [List.filter_cons_of_pos this, List.foldl_cons, List.foldl_cons, ih]

theorem interLoop_nil (rs : StringScopes) (u : Acc) :
    interLoop [] rs u = rs.foldl interStep u := by
  simp only [interLoop, interRest]

theorem interLoop_cons_nil (t : StringScope) (ts : StringScopes) (u : Acc) :
    interLoop (t :: ts) [] u = (t :: ts).foldl interStep u := by
  simp only [interLoop, interLoopRhs, interRest]

/-- The rounds of the first loop of `Intersection`, as the source writes them. -/
theorem interLoop_cons_cons (t r : StringScope) (ts rs : StringScopes) (u : Acc) :
    interLoop (t :: ts) (r :: rs) u =
      if t.Start = [] then interLoop ts (r :: rs) u
      else if r.Start = [] then interLoop (t :: ts) rs u
      else if strLt t.Start r.Start then interLoop ts (r :: rs) (interStep u t)
      else interLoop (t :: ts) rs (interStep u r) := by
  simp only [interLoop, interLoopRhs]

/-- On sorted streams both loops of `Intersection` together fold `interStep` over
the non-universal elements of the two streams, taken in ascending order. -/
theorem interLoop_fold : ∀ (ts rs : StringScopes), ts.Pairwise notAfter →
    rs.Pairwise notAfter →
    ∃ L : StringScopes, L.Perm ((ts ++ rs).filter nonMax) ∧ L.Pairwise leS ∧
      ∀ u, interLoop ts rs u = L.foldl interStep u := by
  intro ts
  induction ts with
  | nil =>
    intro rs _ hr
    refine ⟨rs.filter nonMax, by simp, filter_sorted rs hr, fun u => ?_⟩
    rw [interLoop_nil, foldl_interStep_filter]
  | cons t ts iht =>
    intro rs
    induction rs with
    | nil =>
      intro ht _
      refine ⟨(t :: ts).filter nonMax, by simp, filter_sorted _ ht, fun u => ?_⟩
      rw [interLoop_cons_nil, foldl_interStep_filter]
    | cons r rs ihr =>
      intro ht hr
      have hts : ts.Pairwise notAfter := (List.pairwise_cons.mp ht).2
      have hrs : rs.Pairwise notAfter := (List.pairwise_cons.mp hr).2
      by_cases h1 : t.Start = []
      · obtain ⟨L, hp, hs, hf⟩ := iht (r :: rs) hts hr
        refine ⟨L, ?_, hs, fun u => ?_⟩
        · have : nonMax t = false := by simp [nonMax, h1]
          rw [List.cons_append, List.filter_cons_of_neg (by simp [this])]
          exact hp
        · rw [interLoop_cons_cons, if_pos h1, hf]
      · have ht1 : nonMax t = true := by simp [nonMax, h1]
        by_cases h2 : r.Start = []
        · obtain ⟨L, hp, hs, hf⟩ := ihr ht hrs
          refine ⟨L, ?_, hs, fun u => ?_⟩
          · have : nonMax r = false := by simp [nonMax, h2]
            have e : (r :: rs).filter nonMax = rs.filter nonMax :=
              List.filter_cons_of_neg (by simp [this])
            rw [List.filter_append, e, ← List.filter_append]
            exact hp
          · rw [interLoop_cons_cons, if_neg h1, if_pos h2, hf]
        · have hr1 : nonMax r = true := by simp [nonMax, h2]
          by_cases h3 : strLt t.Start r.Start = true
          · obtain ⟨L, hp, hs, hf⟩ := iht (r :: rs) hts hr
            refine ⟨t :: L, ?_, ?_, fun u => ?_⟩
            · rw [List.cons_append, List.filter_cons_of_pos ht1]
              exact hp.cons t
            · refine List.pairwise_cons.mpr ⟨fun x hx => ?_, hs⟩
              have hx' := List.mem_filter.mp (hp.mem_iff.mp hx)
              exact head_leS_rest ht hr (leS_of_lt h3) x (List.mem_append.mp hx'.1)
                ((nonMax_iff x).mp hx'.2)
            · rw [interLoop_cons_cons, if_neg h1, if_neg h2, if_pos h3, hf, List.foldl_cons]
          · obtain ⟨L, hp, hs, hf⟩ := ihr ht hrs
            refine ⟨r :: L, ?_, ?_, fun u => ?_⟩
            · refine (hp.cons r).trans ?_
              rw [← List.filter_cons_of_pos hr1]
              exact (List.perm_middle.symm).filter _
            · refine List.pairwise_cons.mpr ⟨fun x hx => ?_, hs⟩
              have hx' := List.mem_filter.mp (hp.mem_iff.mp hx)
              have hx2 : x ∈ rs ∨ x ∈ t :: ts := (List.mem_append.mp hx'.1).symm
              exact head_leS_rest hr ht (leS_of_not_lt h3) x hx2 ((nonMax_iff x).mp hx'.2)
            · rw [interLoop_cons_cons, if_neg h1, if_neg h2, if_neg h3, hf, List.foldl_cons]

/-! ## What the fold of `interStep` keeps -/

theorem foldl_interStep_eq (L : StringScopes) (u : Acc) :
    (L.foldl interStep u).toScopes = u.init ++ keepSpecific u.last L := by
  induction L generalizing u with
  | nil => rfl
  | cons c L ih =>
    rw [List.foldl_cons, ih]
    unfold interStep
    by_cases h2 : u.last.Cmp c = 2
    · simp [keepSpecific, h2]
    · by_cases h1 : u.last.Cmp c = 1
      · simp [keepSpecific, h1]
      · simp [keepSpecific, h1, h2]

theorem ltS_of_Cmp_one {x y : StringScope} (h : x.Cmp y = 1) : ltS x y := by
  rw [Cmp_eq_one_iff] at h
  exact strLt_of_properPre _ _ h.2 h.1

theorem Cmp_ne_one_of_leS {x y : StringScope} (h : leS y x) : x.Cmp y ≠ 1 := by
  intro h1
  have := ltS_of_Cmp_one h1
  unfold leS at h
  unfold ltS at this
  rw [this] at h
  exact absurd h (by simp)

theorem Cmp_self (x : StringScope) : x.Cmp x = 0 := (Cmp_eq_zero_iff x x).mpr rfl

theorem pre_of_between {a c y : StringScope} (hac : leS a c) (hcy : leS c y)
    (h : a.Start <+: y.Start) : a.Start <+: c.Start :=
  prefix_of_between _ _ _ h hac hcy

theorem ltS_of_ltS_of_leS {a b c : StringScope} (h1 : ltS a b) (h2 : leS b c) : ltS a c := by
  unfold ltS leS at *
  rcases strLt_total a.Start c.Start with h | h | h
  · exact h
  · rw [← h, h1] at h2
    exact absurd h2 (by simp)
  · rw [strLt_trans _ _ _ h h1] at h2
    exact absurd h2 (by simp)

/-- In the sorted order the candidate is never a strict prefix of the last element. -/
theorem Cmp_sorted_cases {last c : StringScope} (h : leS last c) :
    last.Cmp c = 2 ∨ last.Cmp c = 1 ∨ c = last := by
  rcases Cmp_cases last c with h0 | h0 | h0 | h0
  · exact Or.inr (Or.inr (scope_ext ((Cmp_eq_zero_iff _ _).mp h0).symm))
  · exfalso
    rw [Cmp_eq_neg_one_iff] at h0
    exact Cmp_ne_one_of_leS h ((Cmp_eq_one_iff c last).mpr ⟨fun e => h0.1 e.symm, h0.2⟩)
  · exact Or.inr (Or.inl h0)
  · exact Or.inl h0

theorem mem_keepSpecific (x : StringScope) : ∀ (L : StringScopes) (last : StringScope),
    (∀ c ∈ L, leS last c) → L.Pairwise leS →
    (x ∈ keepSpecific last L ↔ x ∈ last :: L ∧ ∀ y ∈ last :: L, x.Cmp y ≠ 1) := by
  intro L
  induction L with
  | nil =>
    intro last _ _
    simp only [keepSpecific, List.mem_singleton]
    constructor
    · rintro rfl
      refine ⟨rfl, fun y hy => ?_⟩
      rw [hy, Cmp_self]
      decide
    · exact fun h => h.1
  | cons c L ih =>
    intro last h1 h2
    have hlc : leS last c := h1 c (List.mem_cons_self _ _)
    have hc : ∀ z ∈ L, leS c z := (List.pairwise_cons.mp h2).1
    have hL : L.Pairwise leS := (List.pairwise_cons.mp h2).2
    have hlast : ∀ z ∈ L, leS last z := fun z hz => h1 z (List.mem_cons_of_mem _ hz)
    rcases Cmp_sorted_cases hlc with h | h | h
    · have e : keepSpecific last (c :: L) = last :: keepSpecific c L := by
        simp [keepSpecific, h]
      rw [e, List.mem_cons, ih c hc hL]
      constructor
      · rintro (rfl | ⟨hx, hall⟩)
        · refine ⟨List.mem_cons_self _ _, fun y hy => ?_⟩
          rcases List.mem_cons.mp hy with rfl | hy
          · rw [Cmp_self]
            decide
          · intro hxy
            have hcy : leS c y := by
              rcases List.mem_cons.mp hy with rfl | hy
              · exact leS_refl _
              · exact hc y hy
            have := pre_of_between hlc hcy ((Cmp_eq_one_iff _ _).mp hxy).2
            exact ((Cmp_eq_two_iff _ _).mp h).1 this
        · refine ⟨List.mem_cons_of_mem _ hx, fun y hy => ?_⟩
          rcases List.mem_cons.mp hy with rfl | hy
          · exact Cmp_ne_one_of_leS (h1 x hx)
          · exact hall y hy
      · rintro ⟨hx, hall⟩
        rcases List.mem_cons.mp hx with rfl | hx
        · exact Or.inl rfl
        · exact Or.inr ⟨hx, fun y hy => hall y (List.mem_cons_of_mem _ hy)⟩
    · have e : keepSpecific last (c :: L) = keepSpecific c L := by
        simp [keepSpecific, h]
      rw [e, ih c hc hL]
      constructor
      · rintro ⟨hx, hall⟩
        refine ⟨List.mem_cons_of_mem _ hx, fun y hy => ?_⟩
        rcases List.mem_cons.mp hy with rfl | hy
        · exact Cmp_ne_one_of_leS (h1 x hx)
        · exact hall y hy
      · rintro ⟨hx, hall⟩
        rcases List.mem_cons.mp hx with rfl | hx
        · exact absurd h (hall c (by simp))
        · exact ⟨hx, fun y hy => hall y (List.mem_cons_of_mem _ hy)⟩
    · subst h
      have e : keepSpecific c (c :: L) = keepSpecific c L := by
        simp [keepSpecific, Cmp_self]
      rw [e, ih c hc hL]
      simp

theorem keepSpecific_sorted : ∀ (L : StringScopes) (last : StringScope),
    (∀ c ∈ L, leS last c) → L.Pairwise leS → (keepSpecific last L).Pairwise ltS := by
  intro L
  induction L with
  | nil =>
    intro last _ _
    simp [keepSpecific]
  | cons c L ih =>
    intro last h1 h2
    have hlc : leS last c := h1 c (List.mem_cons_self _ _)
    have hc : ∀ z ∈ L, leS c z := (List.pairwise_cons.mp h2).1
    have hL : L.Pairwise leS := (List.pairwise_cons.mp h2).2
    rcases Cmp_sorted_cases hlc with h | h | h
    · have e : keepSpecific last (c :: L) = last :: keepSpecific c L := by
        simp [keepSpecific, h]
      rw [e]
      refine List.pairwise_cons.mpr ⟨fun x hx => ?_, ih c hc hL⟩
      have hx' := ((mem_keepSpecific x L c hc hL).mp hx).1
      have hne : last.Start ≠ c.Start := by
        intro he
        rw [(Cmp_eq_zero_iff _ _).mpr he] at h
        exact absurd h (by decide)
      have hcx : leS c x := by
        rcases List.mem_cons.mp hx' with rfl | hx'
        · exact leS_refl _
        · exact hc x hx'
      exact ltS_of_ltS_of_leS (lt_of_leS_of_ne hlc hne) hcx
    · have e : keepSpecific last (c :: L) = keepSpecific c L := by
        simp [keepSpecific, h]
      rw [e]
      exact ih c hc hL
    · subst h
      have e : keepSpecific c (c :: L) = keepSpecific c L := by
        simp [keepSpecific, Cmp_self]
      rw [e]
      exact ih c hc hL

/-! ## The keys a scope denotes -/

theorem mem_keySet (s : StringScope) (k : GoString) : k ∈ keySet s ↔ s.Start <+: k :=
  hasPrefix_iff k s.Start

theorem keySet_subset_iff (a b : StringScope) :
    keySet a ⊆ keySet b ↔ b.Start <+: a.Start := by
  constructor
  · intro h
    exact (mem_keySet b _).mp (h ((mem_keySet a _).mpr (List.prefix_refl _)))
  · intro h k hk
    exact (mem_keySet b k).mpr (h.trans ((mem_keySet a k).mp hk))

theorem keySet_eq_iff (a b : StringScope) : keySet a = keySet b ↔ a.Start = b.Start := by
  constructor
  · intro h
    have h1 := (keySet_subset_iff a b).mp (le_of_eq h)
    have h2 := (keySet_subset_iff b a).mp (le_of_eq h.symm)
    exact prefix_antisymm h2 h1
  · intro h
    unfold keySet
    rw [h]

theorem keySet_ssubset_iff (a b : StringScope) :
    keySet a ⊂ keySet b ↔ a.Start ≠ b.Start ∧ b.Start <+: a.Start := by
  rw [Set.ssubset_def, keySet_subset_iff, keySet_subset_iff]
  constructor
  · rintro ⟨h1, h2⟩
    refine ⟨fun h => h2 ?_, h1⟩
    rw [h]
  · rintro ⟨h1, h2⟩
    exact ⟨h2, fun h => h1 (prefix_antisymm h h2)⟩

theorem keySet_disjoint_iff (a b : StringScope) :
    Disjoint (keySet a) (keySet b) ↔ ¬ a.Start <+: b.Start ∧ ¬ b.Start <+: a.Start := by
  rw [Set.disjoint_left]
  constructor
  · intro h
    constructor
    · intro hab
      exact h ((mem_keySet a _).mpr hab) ((mem_keySet b _).mpr (List.prefix_refl _))
    · intro hba
      exact h ((mem_keySet a _).mpr (List.prefix_refl _)) ((mem_keySet b _).mpr hba)
  · rintro ⟨h1, h2⟩ k hka hkb
    rcases List.prefix_or_prefix_of_prefix ((mem_keySet a k).mp hka)
      ((mem_keySet b k).mp hkb) with h | h
    · exact h1 h
    · exact h2 h

/-- C2.  `Cmp` encodes the subset relation between the key-sets of two scopes:
it is 0 exactly when the sets are equal, -1 exactly when the receiver's set is a
strict subset, 1 exactly when it is a strict superset, 2 exactly when the sets are
disjoint; these four cases are exhaustive, so two key-sets never partially overlap;
the universal scope compares 1 against every scope with a non-empty `Start` and 0
against itself. -/
theorem Cmp_encodes_subset (a b : StringScope) :
    (a.Cmp b = 0 ↔ keySet a = keySet b) ∧
    (a.Cmp b = -1 ↔ keySet a ⊂ keySet b) ∧
    (a.Cmp b = 1 ↔ keySet b ⊂ keySet a) ∧
    (a.Cmp b = 2 ↔ Disjoint (keySet a) (keySet b)) ∧
    (keySet a = keySet b ∨ keySet a ⊂ keySet b ∨ keySet b ⊂ keySet a ∨
      Disjoint (keySet a) (keySet b)) ∧
    (∀ (c : Nat) (s : GoString), MaxScope.Cmp ⟨c :: s⟩ = 1) ∧
    MaxScope.Cmp MaxScope = 0 := by
  have h0 : a.Cmp b = 0 ↔ keySet a = keySet b := by
    rw [Cmp_eq_zero_iff, keySet_eq_iff]
  have h1 : a.Cmp b = -1 ↔ keySet a ⊂ keySet b := by
    rw [Cmp_eq_neg_one_iff, keySet_ssubset_iff]
  have h2 : a.Cmp b = 1 ↔ keySet b ⊂ keySet a := by
    rw [Cmp_eq_one_iff, keySet_ssubset_iff]
    constructor
    · rintro ⟨h, h'⟩; exact ⟨fun e => h e.symm, h'⟩
    · rintro ⟨h, h'⟩; exact ⟨fun e => h e.symm, h'⟩
  have h3 : a.Cmp b = 2 ↔ Disjoint (keySet a) (keySet b) := by
    rw [Cmp_eq_two_iff, keySet_disjoint_iff]
  refine ⟨h0, h1, h2, h3, ?_, ?_, ?_⟩
  · rcases Cmp_cases a b with h | h | h | h
    · exact Or.inl (h0.mp h)
    · exact Or.inr (Or.inl (h1.mp h))
    · exact Or.inr (Or.inr (Or.inl (h2.mp h)))
    · exact Or.inr (Or.inr (Or.inr (h3.mp h)))
  · intro c s
    simp [StringScope.Cmp, MaxScope]
  · simp [StringScope.Cmp]

/-! ## `Intersection`: membership and order of the result -/

theorem Intersection_eq_keep (A B : StringScopes) :
    ∃ L : StringScopes, L.Perm ((A ++ B).filter nonMax) ∧ L.Pairwise leS ∧
      Intersection A B = keepSpecific MaxScope L := by
  obtain ⟨L, hp, hs, hf⟩ :=
    interLoop_fold (sortScopes A) (sortScopes B) (sortScopes_sorted A) (sortScopes_sorted B)
  refine ⟨L, hp.trans ?_, hs, ?_⟩
  · exact ((sortScopes_perm A).append (sortScopes_perm B)).filter _
  · unfold Intersection
    rw [hf, foldl_interStep_eq]
    rfl

theorem Cmp_max_ne_one (x : StringScope) {y : StringScope} (hy : y.Start = []) :
    x.Cmp y ≠ 1 := by
  intro h
  rw [Cmp_eq_one_iff, hy, List.prefix_nil] at h
  exact h.1 h.2

theorem eq_max_of_start {y : StringScope} (hy : y.Start = []) : y = MaxScope :=
  scope_ext hy

/-- The result of `Intersection` holds the universal scope and the members of the two
lists, as far as no member of the two lists is a strict extension of them. -/
theorem mem_Intersection (A B : StringScopes) (x : StringScope) :
    x ∈ Intersection A B ↔
      (x = MaxScope ∨ x ∈ A ∨ x ∈ B) ∧ ∀ y ∈ A ++ B, x.Cmp y ≠ 1 := by
  obtain ⟨L, hp, hs, he⟩ := Intersection_eq_keep A B
  have hL : ∀ z, z ∈ L ↔ (z ∈ A ∨ z ∈ B) ∧ z.Start ≠ [] := by
    intro z
    rw [hp.mem_iff, List.mem_filter, List.mem_append, nonMax_iff]
  rw [he, mem_keepSpecific x L MaxScope (fun c _ => max_leS c) hs]
  constructor
  · rintro ⟨hx, hall⟩
    constructor
    · rcases List.mem_cons.mp hx with rfl | hx
      · exact Or.inl rfl
      · exact Or.inr ((hL x).mp hx).1
    · intro y hy
      by_cases hy0 : y.Start = []
      · exact Cmp_max_ne_one x hy0
      · exact hall y (List.mem_cons_of_mem _ ((hL y).mpr ⟨List.mem_append.mp hy, hy0⟩))
  · rintro ⟨hx, hall⟩
    constructor
    · by_cases hx0 : x.Start = []
      · rw [eq_max_of_start hx0]
        exact List.mem_cons_self _ _
      · rcases hx with rfl | hx
        · exact List.mem_cons_self _ _
        · exact List.mem_cons_of_mem _ ((hL x).mpr ⟨hx, hx0⟩)
    · intro y hy
      rcases List.mem_cons.mp hy with rfl | hy
      · exact Cmp_max_ne_one x rfl
      · exact hall y (List.mem_append.mpr ((hL y).mp hy).1)

theorem Intersection_sorted (A B : StringScopes) : (Intersection A B).Pairwise ltS := by
  obtain ⟨L, _, hs, he⟩ := Intersection_eq_keep A B
  rw [he]
  exact keepSpecific_sorted L MaxScope (fun c _ => max_leS c) hs

theorem Cmp_neg_one_symm {x y : StringScope} (h : x.Cmp y = -1) : y.Cmp x = 1 := by
  rw [Cmp_eq_neg_one_iff] at h
  exact (Cmp_eq_one_iff y x).mpr ⟨fun e => h.1 e.symm, h.2⟩

theorem Intersection_no_strict_pre (A B : StringScopes) (x y : StringScope)
    (hx : x ∈ Intersection A B) (hy : y ∈ Intersection A B) : x.Cmp y ≠ 1 := by
  have hx' := (mem_Intersection A B x).mp hx
  have hy' := (mem_Intersection A B y).mp hy
  rcases hy'.1 with rfl | hyA | hyB
  · exact Cmp_max_ne_one x rfl
  · exact hx'.2 y (List.mem_append_left _ hyA)
  · exact hx'.2 y (List.mem_append_right _ hyB)

/-- A list in strictly ascending order without nested members is in the order
`sort.Sort` establishes. -/
theorem notAfter_of_ltS_laminar (l : StringScopes) (hs : l.Pairwise ltS)
    (hl : ∀ x ∈ l, ∀ y ∈ l, x.Cmp y ≠ 1) : l.Pairwise notAfter := by
  refine List.Pairwise.imp_of_mem ?_ hs
  intro a b ha hb hab
  rw [notAfter_iff]
  refine Or.inr ⟨fun ha0 => ?_, leS_of_lt hab⟩
  refine hl a ha b hb ((Cmp_eq_one_iff a b).mpr ⟨fun e => ?_, ?_⟩)
  · unfold ltS at hab
    rw [e, strLt_irrefl] at hab
    exact absurd hab (by simp)
  · rw [ha0]
    exact nil_pre _

theorem nodup_of_ltS (l : StringScopes) (hs : l.Pairwise ltS) : l.Nodup := by
  refine List.Pairwise.imp ?_ hs
  intro a b hab e
  unfold ltS at hab
  rw [e, strLt_irrefl] at hab
  exact absurd hab (by simp)

/-- C4.  Laminar invariant of `Intersection`: whatever the two lists, no two elements
of the result compare -1 or 1, so none is a strict subset or superset of another. -/
theorem Intersection_laminar (A B : StringScopes) (x y : StringScope)
    (hx : x ∈ Intersection A B) (hy : y ∈ Intersection A B) :
    x.Cmp y ≠ -1 ∧ x.Cmp y ≠ 1 :=
  ⟨fun h => Intersection_no_strict_pre A B y x hy hx (Cmp_neg_one_symm h),
    Intersection_no_strict_pre A B x y hx hy⟩

/-- The elements `a///` and `d//` of the intersection of `[a//, a///, d//]` with `[a/]`
of the test suite are not nested. -/
theorem Intersection_laminar_witness :
    (⟨[97, 47, 47, 47]⟩ : StringScope) ∈
        Intersection [⟨[97, 47, 47]⟩, ⟨[97, 47, 47, 47]⟩, ⟨[100, 47, 47]⟩] [⟨[97, 47]⟩] ∧
      (⟨[100, 47, 47]⟩ : StringScope) ∈
        Intersection [⟨[97, 47, 47]⟩, ⟨[97, 47, 47, 47]⟩, ⟨[100, 47, 47]⟩] [⟨[97, 47]⟩] ∧
      (StringScope.Cmp ⟨[97, 47, 47, 47]⟩ ⟨[100, 47, 47]⟩ ≠ -1 ∧
        StringScope.Cmp ⟨[97, 47, 47, 47]⟩ ⟨[100, 47, 47]⟩ ≠ 1) :=
  ⟨by decide, by decide,
    Intersection_laminar [⟨[97, 47, 47]⟩, ⟨[97, 47, 47, 47]⟩, ⟨[100, 47, 47]⟩] [⟨[97, 47]⟩]
      ⟨[97, 47, 47, 47]⟩ ⟨[100, 47, 47]⟩ (by decide) (by decide)⟩

theorem Cmp_one_of_pre {a b y : StringScope} (hab : a.Start <+: b.Start) (h : b.Cmp y = 1) :
    a.Cmp y = 1 := by
  rw [Cmp_eq_one_iff] at h ⊢
  refine ⟨fun e => h.1 ?_, hab.trans h.2⟩
  rw [e] at hab
  exact prefix_antisymm h.2 hab

theorem covers_iff (l : StringScopes) (k : GoString) :
    covers l k ↔ ∃ s ∈ l, s.Start <+: k := by
  unfold covers
  constructor
  · rintro ⟨s, hs, h⟩
    exact ⟨s, hs, (hasPrefix_iff _ _).mp h⟩
  · rintro ⟨s, hs, h⟩
    exact ⟨s, hs, (hasPrefix_iff _ _).mpr h⟩

/-- For normalized lists every key covered by both lists is covered by the result of
`Intersection`. -/
theorem covers_Intersection (A B : StringScopes) (hA : Normalized A) (hB : Normalized B)
    (k : GoString) (hkA : covers A k) (hkB : covers B k) : covers (Intersection A B) k := by
  rw [covers_iff] at hkA hkB ⊢
  obtain ⟨a, ha, hak⟩ := hkA
  obtain ⟨b, hb, hbk⟩ := hkB
  rcases List.prefix_or_prefix_of_prefix hak hbk with hab | hba
  · refine ⟨b, (mem_Intersection A B b).mpr ⟨Or.inr (Or.inr hb), fun y hy h => ?_⟩, hbk⟩
    rcases List.mem_append.mp hy with hy | hy
    · exact hA a ha y hy (Cmp_one_of_pre hab h)
    · exact hB b hb y hy h
  · refine ⟨a, (mem_Intersection A B a).mpr ⟨Or.inr (Or.inl ha), fun y hy h => ?_⟩, hak⟩
    rcases List.mem_append.mp hy with hy | hy
    · exact hA a ha y hy h
    · exact hB b hb y hy (Cmp_one_of_pre hba h)

theorem sortScopes_singleton (a : StringScope) : sortScopes [a] = [a] := by
  simp [sortScopes]

theorem Cmp_max_eq_one {a : StringScope} (ha : a.Start ≠ []) : MaxScope.Cmp a = 1 := by
  rw [Cmp_eq_one_iff]
  exact ⟨fun e => ha e.symm, nil_pre _⟩

theorem Cmp_two_symm {a b : StringScope} (h : a.Cmp b = 2) : b.Cmp a = 2 := by
  rw [Cmp_eq_two_iff] at h ⊢
  exact ⟨h.2, h.1⟩

theorem start_ne_nil_of_Cmp_two {a b : StringScope} (h : a.Cmp b = 2) :
    a.Start ≠ [] ∧ b.Start ≠ [] := by
  rw [Cmp_eq_two_iff] at h
  constructor
  · intro e
    rw [e] at h
    exact h.1 (nil_pre _)
  · intro e
    rw [e] at h
    exact h.2 (nil_pre _)

/-- The intersection of two disjoint bands holds both, in ascending order. -/
theorem Intersection_disjoint_pair (a b : StringScope) (h : a.Cmp b = 2) :
    Intersection [a] [b] = if strLt a.Start b.Start then [a, b] else [b, a] := by
  obtain ⟨ha, hb⟩ := start_ne_nil_of_Cmp_two h
  have h2 := Cmp_two_symm h
  unfold Intersection
  rw [sortScopes_singleton, sortScopes_singleton, interLoop_cons_cons, if_neg ha, if_neg hb]
  by_cases hlt : strLt a.Start b.Start = true
  · rw [if_pos hlt, if_pos hlt, interLoop_nil]
    simp [interStep, Cmp_max_eq_one ha, h, Acc.toScopes]
  · rw [if_neg hlt, if_neg hlt, interLoop_cons_nil]
    simp [interStep, Cmp_max_eq_one hb, h2, Acc.toScopes]

/-- C5.  `Intersection` is over-inclusive, never under-inclusive: for normalized lists
every key that starts with the `Start` of a member of each list starts with the
`Start` of a member of the result; and when the two lists are single disjoint bands
the result holds both bands, in ascending order, and is not empty. -/
theorem Intersection_conservative (A B : StringScopes) (hA : Normalized A)
    (hB : Normalized B) :
    (∀ k : GoString, covers A k → covers B k → covers (Intersection A B) k) ∧
    (∀ a b : StringScope, A = [a] → B = [b] → a.Cmp b = 2 →
      Intersection A B = if strLt a.Start b.Start then [a, b] else [b, a]) := by
  refine ⟨fun k => covers_Intersection A B hA hB k, ?_⟩
  rintro a b rfl rfl h
  exact Intersection_disjoint_pair a b h

/-- The lists `[a]` and `[ab]` are normalized, the key `abc` is covered by both and by
their intersection. -/
theorem Intersection_conservative_witness :
    Normalized [⟨[97]⟩] ∧ Normalized [⟨[97, 98]⟩] ∧
      covers [⟨[97]⟩] [97, 98, 99] ∧ covers [⟨[97, 98]⟩] [97, 98, 99] ∧
      covers (Intersection [⟨[97]⟩] [⟨[97, 98]⟩]) [97, 98, 99] :=
  ⟨by decide, by decide, by decide, by decide,
    (Intersection_conservative [⟨[97]⟩] [⟨[97, 98]⟩] (by decide) (by decide)).1
      [97, 98, 99] (by decide) (by decide)⟩

theorem mem_Intersection_comm (A B : StringScopes) (x : StringScope) :
    x ∈ Intersection A B ↔ x ∈ Intersection B A := by
  rw [mem_Intersection, mem_Intersection]
  constructor
  · rintro ⟨h1, h2⟩
    refine ⟨?_, fun y hy => h2 y ?_⟩
    · rcases h1 with h | h | h
      · exact Or.inl h
      · exact Or.inr (Or.inr h)
      · exact Or.inr (Or.inl h)
    · rw [List.mem_append] at hy ⊢
      exact hy.symm
  · rintro ⟨h1, h2⟩
    refine ⟨?_, fun y hy => h2 y ?_⟩
    · rcases h1 with h | h | h
      · exact Or.inl h
      · exact Or.inr (Or.inr h)
      · exact Or.inr (Or.inl h)
    · rw [List.mem_append] at hy ⊢
      exact hy.symm

/-- Intersecting a non-empty normalized list with members of itself and universal
scopes keeps exactly the members of the list. -/
theorem mem_Intersection_of_normalized (A B : StringScopes) (hne : A ≠ [])
    (hA : Normalized A) (hB : ∀ y ∈ B, y ∈ A ∨ y = MaxScope) (x : StringScope) :
    x ∈ Intersection A B ↔ x ∈ A := by
  rw [mem_Intersection]
  have hmax : (∀ y ∈ A ++ B, MaxScope.Cmp y ≠ 1) → MaxScope ∈ A := by
    intro hall
    obtain ⟨z, hz⟩ := List.exists_mem_of_ne_nil A hne
    have hz0 : z.Start = [] := by
      by_contra h0
      exact hall z (List.mem_append_left _ hz) (Cmp_max_eq_one h0)
    rw [← eq_max_of_start hz0]
    exact hz
  constructor
  · rintro ⟨h1, h2⟩
    rcases h1 with rfl | h | h
    · exact hmax h2
    · exact h
    · rcases hB x h with h | rfl
      · exact h
      · exact hmax h2
  · intro hx
    refine ⟨Or.inr (Or.inl hx), fun y hy => ?_⟩
    rcases List.mem_append.mp hy with hy | hy
    · exact hA x hx y hy
    · rcases hB y hy with hy | rfl
      · exact hA x hx y hy
      · exact Cmp_max_ne_one x rfl

theorem mem_starts (l : StringScopes) (s : GoString) : s ∈ starts l ↔ (⟨s⟩ : StringScope) ∈ l := by
  unfold starts
  rw [List.mem_map]
  constructor
  · rintro ⟨x, hx, rfl⟩
    exact hx
  · intro h
    exact ⟨⟨s⟩, h, rfl⟩

theorem starts_sorted (l : StringScopes) (h : l.Pairwise ltS) :
    (starts l).Pairwise (fun a b => strLt a b = true) := by
  unfold starts
  rw [List.pairwise_map]
  exact h

theorem Intersection_notAfter (A B : StringScopes) : (Intersection A B).Pairwise notAfter :=
  notAfter_of_ltS_laminar _ (Intersection_sorted A B)
    (fun x hx y hy => Intersection_no_strict_pre A B x y hx hy)

theorem starts_mem_iff {l₁ l₂ : StringScopes} (h : ∀ x, x ∈ l₁ ↔ x ∈ l₂) (s : GoString) :
    s ∈ starts l₁ ↔ s ∈ starts l₂ := by
  rw [mem_starts, mem_starts]
  exact h _

theorem eq_singleton_of_mem_iff (l : StringScopes) (a : StringScope) (hd : l.Nodup)
    (h : ∀ x, x ∈ l ↔ x = a) : l = [a] := by
  have hp : l.Perm [a] := by
    refine (List.perm_ext_iff_of_nodup hd (List.nodup_singleton a)).mpr fun x => ?_
    rw [h x, List.mem_singleton]
  exact List.perm_singleton.mp hp

/-- C7 as stated fails on the empty list: it is normalized, its intersection with the
universal scope is the universal scope, whose `Start` is not a `Start` of the list. -/
theorem Intersection_universal_identity_counterexample :
    Normalized [] ∧ Intersection [] [MaxScope] = [MaxScope] ∧
      ¬ (∀ s : GoString, s ∈ starts (Intersection [] [MaxScope]) ↔ s ∈ starts []) := by
  refine ⟨by decide, by decide, fun h => ?_⟩
  have := (h []).mp (by decide)
  simp [starts] at this

/-- C7, amended.  The universal scope is the identity of `Intersection` on non-empty
lists: for every non-empty normalized list `A`, the result of intersecting `A` with
the list of the universal scope, on either side, has exactly the `Start` values of
`A`, in strictly ascending order; in particular intersecting a single prefix scope
with the universal scope gives back the list of that prefix scope. -/
theorem Intersection_universal_identity (A : StringScopes) (hne : A ≠ [])
    (hA : Normalized A) :
    ((∀ s : GoString, s ∈ starts (Intersection A [MaxScope]) ↔ s ∈ starts A) ∧
      (starts (Intersection A [MaxScope])).Pairwise (fun a b => strLt a b = true)) ∧
    ((∀ s : GoString, s ∈ starts (Intersection [MaxScope] A) ↔ s ∈ starts A) ∧
      (starts (Intersection [MaxScope] A)).Pairwise (fun a b => strLt a b = true)) ∧
    (∀ p : GoString, A = [⟨p⟩] →
      Intersection A [MaxScope] = [⟨p⟩] ∧ Intersection [MaxScope] A = [⟨p⟩]) := by
  have hB : ∀ y ∈ [MaxScope], y ∈ A ∨ y = MaxScope := fun y hy =>
    Or.inr (List.mem_singleton.mp hy)
  have h1 : ∀ x, x ∈ Intersection A [MaxScope] ↔ x ∈ A :=
    mem_Intersection_of_normalized A [MaxScope] hne hA hB
  have h2 : ∀ x, x ∈ Intersection [MaxScope] A ↔ x ∈ A := fun x =>
    (mem_Intersection_comm [MaxScope] A x).trans (h1 x)
  refine ⟨⟨starts_mem_iff h1, starts_sorted _ (Intersection_sorted _ _)⟩,
    ⟨starts_mem_iff h2, starts_sorted _ (Intersection_sorted _ _)⟩, ?_⟩
  rintro p rfl
  constructor
  · refine eq_singleton_of_mem_iff _ _ (nodup_of_ltS _ (Intersection_sorted _ _)) fun x => ?_
    rw [h1 x, List.mem_singleton]
  · refine eq_singleton_of_mem_iff _ _ (nodup_of_ltS _ (Intersection_sorted _ _)) fun x => ?_
    rw [h2 x, List.mem_singleton]

/-- The list `[a//, c/, d//]` of the test suite is non-empty and normalized; its
intersection with the universal scope has its `Start` values, in ascending order. -/
theorem Intersection_universal_identity_witness :
    ([⟨[97, 47, 47]⟩, ⟨[99, 47]⟩, ⟨[100, 47, 47]⟩] : StringScopes) ≠ [] ∧
      Normalized [⟨[97, 47, 47]⟩, ⟨[99, 47]⟩, ⟨[100, 47, 47]⟩] ∧
      ((∀ s : GoString,
          s ∈ starts (Intersection [⟨[97, 47, 47]⟩, ⟨[99, 47]⟩, ⟨[100, 47, 47]⟩] [MaxScope]) ↔
            s ∈ starts [⟨[97, 47, 47]⟩, ⟨[99, 47]⟩, ⟨[100, 47, 47]⟩]) ∧
        (starts (Intersection [⟨[97, 47, 47]⟩, ⟨[99, 47]⟩, ⟨[100, 47, 47]⟩]
          [MaxScope])).Pairwise (fun a b => strLt a b = true)) :=
  ⟨by decide, by decide,
    (Intersection_universal_identity [⟨[97, 47, 47]⟩, ⟨[99, 47]⟩, ⟨[100, 47, 47]⟩]
      (by decide) (by decide)).1⟩

/-- C10 as stated fails on the empty list: it is normalized and duplicate-free, and
its intersection with itself is the list of the universal scope. -/
theorem Intersection_idempotent_counterexample :
    Normalized [] ∧ ([] : StringScopes).Nodup ∧ Intersection [] [] = [MaxScope] ∧
      starts (Intersection [] []) ≠ starts [] := by
  refine ⟨by decide, by decide, by decide, by decide⟩

/-- C10, amended.  `Intersection` is idempotent on non-empty lists: for every non-empty,
normalized, duplicate-free list `A`, the result of `Intersection(A, A)` is `A` sorted;
its `Start` values are those of `A`, each once, in ascending order with the empty
string last. -/
theorem Intersection_idempotent (A : StringScopes) (hne : A ≠ []) (hA : Normalized A)
    (hd : A.Nodup) :
    Intersection A A = sortScopes A ∧ (starts (Intersection A A)).Perm (starts A) ∧
      (Intersection A A).Pairwise notAfter := by
  have hm : ∀ x, x ∈ Intersection A A ↔ x ∈ A :=
    mem_Intersection_of_normalized A A hne hA (fun y hy => Or.inl hy)
  have hp : (Intersection A A).Perm A :=
    (List.perm_ext_iff_of_nodup (nodup_of_ltS _ (Intersection_sorted A A)) hd).mpr hm
  exact ⟨sorted_perm_unique A _ hp (Intersection_notAfter A A), hp.map _,
    Intersection_notAfter A A⟩

/-- The list `[d//, a//, c/]` is non-empty, normalized and duplicate-free; its
intersection with itself is `[a//, c/, d//]`. -/
theorem Intersection_idempotent_witness :
    ([⟨[100, 47, 47]⟩, ⟨[97, 47, 47]⟩, ⟨[99, 47]⟩] : StringScopes) ≠ [] ∧
      Normalized [⟨[100, 47, 47]⟩, ⟨[97, 47, 47]⟩, ⟨[99, 47]⟩] ∧
      ([⟨[100, 47, 47]⟩, ⟨[97, 47, 47]⟩, ⟨[99, 47]⟩] : StringScopes).Nodup ∧
      Intersection [⟨[100, 47, 47]⟩, ⟨[97, 47, 47]⟩, ⟨[99, 47]⟩]
          [⟨[100, 47, 47]⟩, ⟨[97, 47, 47]⟩, ⟨[99, 47]⟩] =
        sortScopes [⟨[100, 47, 47]⟩, ⟨[97, 47, 47]⟩, ⟨[99, 47]⟩] ∧
      sortScopes [⟨[100, 47, 47]⟩, ⟨[97, 47, 47]⟩, ⟨[99, 47]⟩] =
        [⟨[97, 47, 47]⟩, ⟨[99, 47]⟩, ⟨[100, 47, 47]⟩] :=
  ⟨by decide, by decide, by decide,
    (Intersection_idempotent [⟨[100, 47, 47]⟩, ⟨[97, 47, 47]⟩, ⟨[99, 47]⟩]
      (by decide) (by decide) (by decide)).1, by decide⟩

/-! ## `Union`: the keys of the result -/

theorem covers_append (l₁ l₂ : StringScopes) (k : GoString) :
    covers (l₁ ++ l₂) k ↔ covers l₁ k ∨ covers l₂ k := by
  unfold covers
  simp only [List.mem_append]
  constructor
  · rintro ⟨s, hs | hs, h⟩
    · exact Or.inl ⟨s, hs, h⟩
    · exact Or.inr ⟨s, hs, h⟩
  · rintro (⟨s, hs, h⟩ | ⟨s, hs, h⟩)
    · exact ⟨s, Or.inl hs, h⟩
    · exact ⟨s, Or.inr hs, h⟩

theorem covers_singleton (d : StringScope) (k : GoString) :
    covers [d] k ↔ d.Start <+: k := by
  rw [covers_iff]
  simp

theorem covers_cons (d : StringScope) (l : StringScopes) (k : GoString) :
    covers (d :: l) k ↔ d.Start <+: k ∨ covers l k := by
  rw [← List.singleton_append, covers_append, covers_singleton]

theorem covers_nil (k : GoString) : ¬ covers [] k := by
  unfold covers
  simp

theorem covers_max (k : GoString) : covers [MaxScope] k :=
  (covers_singleton _ _).mpr (nil_pre k)

theorem covers_perm {l₁ l₂ : StringScopes} (h : l₁.Perm l₂) (k : GoString) :
    covers l₁ k ↔ covers l₂ k := by
  unfold covers
  constructor
  · rintro ⟨s, hs, hk⟩
    exact ⟨s, h.mem_iff.mp hs, hk⟩
  · rintro ⟨s, hs, hk⟩
    exact ⟨s, h.mem_iff.mpr hs, hk⟩

theorem unionStep_nil (d : StringScope) : unionStep [] d = [d] := rfl

theorem unionStep_concat (init : StringScopes) (last d : StringScope) :
    unionStep (init ++ [last]) d =
      if last.Cmp d = 2 then init ++ [last] ++ [d]
      else if last.Cmp d = -1 then init ++ [d]
      else init ++ [last] := by
  unfold unionStep
  rw [List.getLast?_concat, List.dropLast_concat]

/-- A round of `Union` adds the keys of the candidate to the keys of the slice. -/
theorem covers_unionStep (u : StringScopes) (d : StringScope) (k : GoString) :
    covers (unionStep u d) k ↔ covers u k ∨ d.Start <+: k := by
  rcases List.eq_nil_or_concat u with rfl | ⟨init, last, rfl⟩
  · rw [unionStep_nil, covers_singleton]
    simp [covers_nil]
  · rw [List.concat_eq_append, unionStep_concat]
    by_cases h2 : last.Cmp d = 2
    · rw [if_pos h2, covers_append, covers_singleton]
    · rw [if_neg h2]
      by_cases h1 : last.Cmp d = -1
      · rw [if_pos h1, covers_append, covers_append, covers_singleton, covers_singleton]
        have hpre : d.Start <+: last.Start := ((Cmp_eq_neg_one_iff _ _).mp h1).2
        constructor
        · rintro (h | h)
          · exact Or.inl (Or.inl h)
          · exact Or.inr h
        · rintro ((h | h) | h)
          · exact Or.inl h
          · exact Or.inr (hpre.trans h)
          · exact Or.inr h
      · rw [if_neg h1, covers_append, covers_singleton]
        have hpre : last.Start <+: d.Start := by
          rcases Cmp_cases last d with h | h | h | h
          · rw [(Cmp_eq_zero_iff _ _).mp h]
          · exact absurd h h1
          · exact ((Cmp_eq_one_iff _ _).mp h).2
          · exact absurd h h2
        constructor
        · exact fun h => Or.inl h
        · rintro (h | h)
          · exact h
          · exact Or.inr (hpre.trans h)

theorem covers_foldl_unionStep (l u : StringScopes) (k : GoString) :
    covers (l.foldl unionStep u) k ↔ covers u k ∨ covers l k := by
  induction l generalizing u with
  | nil => simp [covers_nil]
  | cons d l ih =>
    rw [List.foldl_cons, ih, covers_unionStep, covers_cons, or_assoc]

theorem unionLoop_nil (rs u : StringScopes) : unionLoop [] rs u = rs.foldl unionStep u := by
  simp only [unionLoop, unionRest]

theorem unionLoop_cons_nil (t : StringScope) (ts u : StringScopes) :
    unionLoop (t :: ts) [] u = (t :: ts).foldl unionStep u := by
  simp only [unionLoop, unionLoopRhs, unionRest]

/-- The rounds of the first loop of `Union`, as the source writes them. -/
theorem unionLoop_cons_cons (t r : StringScope) (ts rs u : StringScopes) :
    unionLoop (t :: ts) (r :: rs) u =
      if t.Start = [] ∨ r.Start = [] then [MaxScope]
      else if strLt t.Start r.Start then unionLoop ts (r :: rs) (unionStep u t)
      else unionLoop (t :: ts) rs (unionStep u r) := by
  simp only [unionLoop, unionLoopRhs]

theorem covers_unionLoop (k : GoString) : ∀ (ts rs u : StringScopes),
    covers (unionLoop ts rs u) k ↔ covers u k ∨ covers ts k ∨ covers rs k := by
  intro ts
  induction ts with
  | nil =>
    intro rs u
    rw [unionLoop_nil, covers_foldl_unionStep]
    simp [covers_nil]
  | cons t ts iht =>
    intro rs
    induction rs with
    | nil =>
      intro u
      rw [unionLoop_cons_nil, covers_foldl_unionStep]
      simp [covers_nil]
    | cons r rs ihr =>
      intro u
      rw [unionLoop_cons_cons]
      by_cases h0 : t.Start = [] ∨ r.Start = []
      · rw [if_pos h0]
        refine ⟨fun _ => Or.inr ?_, fun _ => covers_max k⟩
        rcases h0 with h0 | h0
        · exact Or.inl ((covers_cons _ _ _).mpr (Or.inl (h0 ▸ nil_pre k)))
        · exact Or.inr ((covers_cons _ _ _).mpr (Or.inl (h0 ▸ nil_pre k)))
      · rw [if_neg h0]
        by_cases hlt : strLt t.Start r.Start = true
        · rw [if_pos hlt, iht, covers_unionStep, covers_cons t]
          tauto
        · rw [if_neg hlt, ihr, covers_unionStep, covers_cons r]
          tauto

/-- The result of `Union` denotes the keys of the two lists together. -/
theorem covers_Union (A B : StringScopes) (k : GoString) :
    covers (Union A B) k ↔ covers A k ∨ covers B k := by
  unfold Union
  rw [covers_unionLoop, covers_perm (sortScopes_perm A), covers_perm (sortScopes_perm B)]
  simp [covers_nil]

/-- C8.  `Union` is commutative up to denotation: a key starts with the `Start` of an
element of `Union(A, B)` exactly when it starts with the `Start` of an element of
`Union(B, A)`. -/
theorem Union_comm_denotation (A B : StringScopes) (k : GoString) :
    covers (Union A B) k ↔ covers (Union B A) k := by
  rw [covers_Union, covers_Union]
  exact or_comm

/-! ## What the fold of `unionStep` keeps -/

theorem foldl_unionStep_concat (L init : StringScopes) (last : StringScope) :
    L.foldl unionStep (init ++ [last]) = init ++ keepGeneral last L := by
  induction L generalizing init last with
  | nil => rfl
  | cons c L ih =>
    rw [List.foldl_cons, unionStep_concat]
    by_cases h2 : last.Cmp c = 2
    · rw [if_pos h2, ih]
      simp [keepGeneral, h2]
    · rw [if_neg h2]
      by_cases h1 : last.Cmp c = -1
      · rw [if_pos h1, ih]
        simp [keepGeneral, h1]
      · rw [if_neg h1, ih]
        simp [keepGeneral, h1, h2]

theorem foldl_unionStep_nil (c : StringScope) (L : StringScopes) :
    (c :: L).foldl unionStep [] = keepGeneral c L := by
  rw [List.foldl_cons, unionStep_nil]
  exact foldl_unionStep_concat L [] c

theorem keepGeneral_two {last c : StringScope} (L : StringScopes) (h : last.Cmp c = 2) :
    keepGeneral last (c :: L) = last :: keepGeneral c L := by
  simp [keepGeneral, h]

theorem keepGeneral_skip {last c : StringScope} (L : StringScopes)
    (h : last.Start <+: c.Start) : keepGeneral last (c :: L) = keepGeneral last L := by
  have h2 : last.Cmp c ≠ 2 := fun e => ((Cmp_eq_two_iff _ _).mp e).1 h
  have h1 : last.Cmp c ≠ -1 := by
    intro e
    rw [Cmp_eq_neg_one_iff] at e
    exact e.1 (prefix_antisymm h e.2)
  simp [keepGeneral, h1, h2]

theorem pre_of_not_two {last c : StringScope} (hlc : leS last c) (h : ¬ last.Cmp c = 2) :
    last.Start <+: c.Start := by
  rcases Cmp_sorted_cases hlc with h' | h' | h'
  · exact absurd h' h
  · exact ((Cmp_eq_one_iff _ _).mp h').2
  · rw [h']

theorem mem_keepGeneral_aux (x : StringScope) : ∀ (L : StringScopes) (last : StringScope),
    (∀ c ∈ L, leS last c) → L.Pairwise leS →
    (x ∈ keepGeneral last L ↔
      x = last ∨ (x ∈ L ∧ ¬ last.Start <+: x.Start ∧ ∀ y ∈ L, y.Cmp x ≠ 1)) := by
  intro L
  induction L with
  | nil =>
    intro last _ _
    simp [keepGeneral]
  | cons c L ih =>
    intro last h1 h2
    have hlc : leS last c := h1 c (List.mem_cons_self _ _)
    have hc : ∀ z ∈ L, leS c z := (List.pairwise_cons.mp h2).1
    have hL : L.Pairwise leS := (List.pairwise_cons.mp h2).2
    have hlast : ∀ z ∈ L, leS last z := fun z hz => h1 z (List.mem_cons_of_mem _ hz)
    by_cases h : last.Cmp c = 2
    · rw [keepGeneral_two L h, List.mem_cons, ih c hc hL]
      constructor
      · rintro (rfl | rfl | ⟨hx, hcx, hall⟩)
        · exact Or.inl rfl
        · refine Or.inr ⟨List.mem_cons_self _ _, ((Cmp_eq_two_iff _ _).mp h).1, ?_⟩
          intro y hy
          rcases List.mem_cons.mp hy with rfl | hy
          · rw [Cmp_self]
            decide
          · exact Cmp_ne_one_of_leS (hc y hy)
        · refine Or.inr ⟨List.mem_cons_of_mem _ hx, fun hlx => ?_, fun y hy => ?_⟩
          · exact ((Cmp_eq_two_iff _ _).mp h).1 (pre_of_between hlc (hc x hx) hlx)
          · rcases List.mem_cons.mp hy with rfl | hy
            · exact fun e => hcx ((Cmp_eq_one_iff _ _).mp e).2
            · exact hall y hy
      · rintro (rfl | ⟨hx, hlx, hall⟩)
        · exact Or.inl rfl
        · by_cases hxc : x = c
          · exact Or.inr (Or.inl hxc)
          · rcases List.mem_cons.mp hx with hx | hx
            · exact absurd hx hxc
            · refine Or.inr (Or.inr ⟨hx, fun hcx => ?_, fun y hy =>
                hall y (List.mem_cons_of_mem _ hy)⟩)
              refine hall c (List.mem_cons_self _ _) ((Cmp_eq_one_iff _ _).mpr ⟨?_, hcx⟩)
              exact fun e => hxc (scope_ext e.symm)
    · have hpre := pre_of_not_two hlc h
      rw [keepGeneral_skip L hpre, ih last hlast hL]
      constructor
      · rintro (rfl | ⟨hx, hlx, hall⟩)
        · exact Or.inl rfl
        · refine Or.inr ⟨List.mem_cons_of_mem _ hx, hlx, fun y hy => ?_⟩
          rcases List.mem_cons.mp hy with rfl | hy
          · exact fun e => hlx (hpre.trans ((Cmp_eq_one_iff _ _).mp e).2)
          · exact hall y hy
      · rintro (rfl | ⟨hx, hlx, hall⟩)
        · exact Or.inl rfl
        · rcases List.mem_cons.mp hx with rfl | hx
          · exact absurd hpre hlx
          · exact Or.inr ⟨hx, hlx, fun y hy => hall y (List.mem_cons_of_mem _ hy)⟩

/-- Folding `unionStep` over a sorted list keeps the members that have no strict prefix
in the list. -/
theorem mem_keepGeneral (x c : StringScope) (L : StringScopes) (h : (c :: L).Pairwise leS) :
    x ∈ keepGeneral c L ↔ x ∈ c :: L ∧ ∀ y ∈ c :: L, y.Cmp x ≠ 1 := by
  have hc : ∀ z ∈ L, leS c z := (List.pairwise_cons.mp h).1
  have hL : L.Pairwise leS := (List.pairwise_cons.mp h).2
  rw [mem_keepGeneral_aux x L c hc hL]
  constructor
  · rintro (rfl | ⟨hx, hcx, hall⟩)
    · refine ⟨List.mem_cons_self _ _, fun y hy => ?_⟩
      rcases List.mem_cons.mp hy with rfl | hy
      · rw [Cmp_self]
        decide
      · exact Cmp_ne_one_of_leS (hc y hy)
    · refine ⟨List.mem_cons_of_mem _ hx, fun y hy => ?_⟩
      rcases List.mem_cons.mp hy with rfl | hy
      · exact fun e => hcx ((Cmp_eq_one_iff _ _).mp e).2
      · exact hall y hy
  · rintro ⟨hx, hall⟩
    by_cases hxc : x = c
    · exact Or.inl hxc
    · rcases List.mem_cons.mp hx with hx | hx
      · exact absurd hx hxc
      · refine Or.inr ⟨hx, fun hcx => ?_, fun y hy => hall y (List.mem_cons_of_mem _ hy)⟩
        refine hall c (List.mem_cons_self _ _) ((Cmp_eq_one_iff _ _).mpr ⟨?_, hcx⟩)
        exact fun e => hxc (scope_ext e.symm)

theorem keepGeneral_sorted : ∀ (L : StringScopes) (last : StringScope),
    (last :: L).Pairwise leS → (keepGeneral last L).Pairwise ltS := by
  intro L
  induction L with
  | nil =>
    intro last _
    simp [keepGeneral]
  | cons c L ih =>
    intro last h
    have h1 : ∀ z ∈ c :: L, leS last z := (List.pairwise_cons.mp h).1
    have h2 : (c :: L).Pairwise leS := (List.pairwise_cons.mp h).2
    have hlc : leS last c := h1 c (List.mem_cons_self _ _)
    have hc : ∀ z ∈ L, leS c z := (List.pairwise_cons.mp h2).1
    have hL : L.Pairwise leS := (List.pairwise_cons.mp h2).2
    by_cases h' : last.Cmp c = 2
    · rw [keepGeneral_two L h']
      refine List.pairwise_cons.mpr ⟨fun x hx => ?_, ih c h2⟩
      have hx' := ((mem_keepGeneral x c L h2).mp hx).1
      have hne : last.Start ≠ c.Start := by
        intro he
        rw [(Cmp_eq_zero_iff _ _).mpr he] at h'
        exact absurd h' (by decide)
      have hcx : leS c x := by
        rcases List.mem_cons.mp hx' with rfl | hx'
        · exact leS_refl _
        · exact hc x hx'
      exact ltS_of_ltS_of_leS (lt_of_leS_of_ne hlc hne) hcx
    · rw [keepGeneral_skip L (pre_of_not_two hlc h')]
      exact ih last (List.pairwise_cons.mpr
        ⟨fun z hz => h1 z (List.mem_cons_of_mem _ hz), hL⟩)

/-! ## `Union` of lists without the universal scope -/

theorem sorted_leS_of_nonMax (l : StringScopes) (h : l.Pairwise notAfter)
    (hne : ∀ x ∈ l, x.Start ≠ []) : l.Pairwise leS := by
  refine List.Pairwise.imp_of_mem ?_ h
  intro a b _ hb hab
  exact leS_of_notAfter hab (hne b hb)

/-- On sorted streams without the universal scope both loops of `Union` together fold
`unionStep` over the elements of the two streams, taken in ascending order. -/
theorem unionLoop_fold : ∀ (ts rs : StringScopes), ts.Pairwise notAfter →
    rs.Pairwise notAfter → (∀ x ∈ ts, x.Start ≠ []) → (∀ x ∈ rs, x.Start ≠ []) →
    ∃ L : StringScopes, L.Perm (ts ++ rs) ∧ L.Pairwise leS ∧
      ∀ u, unionLoop ts rs u = L.foldl unionStep u := by
  intro ts
  induction ts with
  | nil =>
    intro rs _ hr _ hrn
    refine ⟨rs, by simp, sorted_leS_of_nonMax rs hr hrn, fun u => ?_⟩
    rw [unionLoop_nil]
  | cons t ts iht =>
    intro rs
    induction rs with
    | nil =>
      intro ht _ htn _
      refine ⟨t :: ts, by simp, sorted_leS_of_nonMax _ ht htn, fun u => ?_⟩
      rw [unionLoop_cons_nil]
    | cons r rs ihr =>
      intro ht hr htn hrn
      have hts : ts.Pairwise notAfter := (List.pairwise_cons.mp ht).2
      have hrs : rs.Pairwise notAfter := (List.pairwise_cons.mp hr).2
      have htsn : ∀ x ∈ ts, x.Start ≠ [] := fun x hx => htn x (List.mem_cons_of_mem _ hx)
      have hrsn : ∀ x ∈ rs, x.Start ≠ [] := fun x hx => hrn x (List.mem_cons_of_mem _ hx)
      have h0 : ¬ (t.Start = [] ∨ r.Start = []) := by
        rintro (h | h)
        · exact htn t (List.mem_cons_self _ _) h
        · exact hrn r (List.mem_cons_self _ _) h
      by_cases h3 : strLt t.Start r.Start = true
      · obtain ⟨L, hp, hs, hf⟩ := iht (r :: rs) hts hr htsn hrn
        refine ⟨t :: L, ?_, ?_, fun u => ?_⟩
        · rw [List.cons_append]
          exact hp.cons t
        · refine List.pairwise_cons.mpr ⟨fun x hx => ?_, hs⟩
          have hx' := List.mem_append.mp (hp.mem_iff.mp hx)
          refine head_leS_rest ht hr (leS_of_lt h3) x hx' ?_
          rcases hx' with hx' | hx'
          · exact htsn x hx'
          · exact hrn x hx'
        · rw [unionLoop_cons_cons, if_neg h0, if_pos h3, hf, List.foldl_cons]
      · obtain ⟨L, hp, hs, hf⟩ := ihr ht hrs htn hrsn
        refine ⟨r :: L, ?_, ?_, fun u => ?_⟩
        · exact (hp.cons r).trans List.perm_middle.symm
        · refine List.pairwise_cons.mpr ⟨fun x hx => ?_, hs⟩
          have hx' := List.mem_append.mp (hp.mem_iff.mp hx)
          refine head_leS_rest hr ht (leS_of_not_lt h3) x hx'.symm ?_
          rcases hx' with hx' | hx'
          · exact htn x hx'
          · exact hrsn x hx'
        · rw [unionLoop_cons_cons, if_neg h0, if_neg h3, hf, List.foldl_cons]

theorem Union_eq_fold (A B : StringScopes) (h : ∀ x ∈ A ++ B, x.Start ≠ []) :
    ∃ L : StringScopes, L.Perm (A ++ B) ∧ L.Pairwise leS ∧
      Union A B = L.foldl unionStep [] := by
  have hA : ∀ x ∈ sortScopes A, x.Start ≠ [] := fun x hx =>
    h x (List.mem_append_left _ (mem_sortScopes.mp hx))
  have hB : ∀ x ∈ sortScopes B, x.Start ≠ [] := fun x hx =>
    h x (List.mem_append_right _ (mem_sortScopes.mp hx))
  obtain ⟨L, hp, hs, hf⟩ :=
    unionLoop_fold (sortScopes A) (sortScopes B) (sortScopes_sorted A) (sortScopes_sorted B)
      hA hB
  exact ⟨L, hp.trans ((sortScopes_perm A).append (sortScopes_perm B)), hs, hf []⟩

/-- Without the universal scope in the two lists, the result of `Union` holds the
members of the two lists that have no strict prefix among them. -/
theorem mem_Union_of_nonMax (A B : StringScopes) (h : ∀ x ∈ A ++ B, x.Start ≠ [])
    (x : StringScope) :
    x ∈ Union A B ↔ x ∈ A ++ B ∧ ∀ y ∈ A ++ B, y.Cmp x ≠ 1 := by
  obtain ⟨L, hp, hs, he⟩ := Union_eq_fold A B h
  rw [he]
  cases L with
  | nil =>
    have : A ++ B = [] := List.perm_nil.mp hp.symm
    rw [this]
    simp
  | cons c L =>
    rw [foldl_unionStep_nil, mem_keepGeneral x c L hs, hp.mem_iff]
    constructor
    · rintro ⟨h1, h2⟩
      exact ⟨h1, fun y hy => h2 y (hp.mem_iff.mpr hy)⟩
    · rintro ⟨h1, h2⟩
      exact ⟨h1, fun y hy => h2 y (hp.mem_iff.mp hy)⟩

theorem Union_sorted_of_nonMax (A B : StringScopes) (h : ∀ x ∈ A ++ B, x.Start ≠ []) :
    (Union A B).Pairwise ltS := by
  obtain ⟨L, _, hs, he⟩ := Union_eq_fold A B h
  rw [he]
  cases L with
  | nil => simp
  | cons c L =>
    rw [foldl_unionStep_nil]
    exact keepGeneral_sorted L c hs

theorem Union_notAfter_of_nonMax (A B : StringScopes) (h : ∀ x ∈ A ++ B, x.Start ≠ []) :
    (Union A B).Pairwise notAfter := by
  refine List.Pairwise.imp_of_mem ?_ (Union_sorted_of_nonMax A B h)
  intro a b ha _ hab
  rw [notAfter_iff]
  exact Or.inr ⟨h a ((mem_Union_of_nonMax A B h a).mp ha).1, leS_of_lt hab⟩

/-- Without the universal scope in the two lists, no element of the result of `Union`
is a strict subset or superset of another, whatever the two lists. -/
theorem Union_laminar_of_nonMax (A B : StringScopes) (h : ∀ x ∈ A ++ B, x.Start ≠ [])
    (x y : StringScope) (hx : x ∈ Union A B) (hy : y ∈ Union A B) :
    x.Cmp y ≠ -1 ∧ x.Cmp y ≠ 1 := by
  have hx' := (mem_Union_of_nonMax A B h x).mp hx
  have hy' := (mem_Union_of_nonMax A B h y).mp hy
  exact ⟨fun e => hx'.2 y hy'.1 (Cmp_neg_one_symm e), hy'.2 x hx'.1⟩

/-- In a normalized list that holds the universal scope every member is the universal
scope. -/
theorem all_max_of_normalized {A : StringScopes} (hA : Normalized A) {m : StringScope}
    (hm : m ∈ A) (hm0 : m.Start = []) : ∀ x ∈ A, x = MaxScope := by
  intro x hx
  by_contra hne
  have hx0 : x.Start ≠ [] := fun e => hne (eq_max_of_start e)
  have := hA m hm x hx
  rw [eq_max_of_start hm0] at this
  exact this (Cmp_max_eq_one hx0)

/-- C9.  `Union` is idempotent: for every normalized, duplicate-free list `A`, the
result of `Union(A, A)` is `A` sorted; its `Start` values are those of `A`, each once,
in ascending order with the empty string last. -/
theorem Union_idempotent (A : StringScopes) (hA : Normalized A) (hd : A.Nodup) :
    Union A A = sortScopes A ∧ (starts (Union A A)).Perm (starts A) ∧
      (Union A A).Pairwise notAfter := by
  have key : (Union A A).Perm A ∧ (Union A A).Pairwise notAfter := by
    by_cases h : ∀ x ∈ A ++ A, x.Start ≠ []
    · have hm : ∀ x, x ∈ Union A A ↔ x ∈ A := by
        intro x
        rw [mem_Union_of_nonMax A A h, List.mem_append, or_self]
        constructor
        · exact fun hx => hx.1
        · refine fun hx => ⟨hx, fun y hy => hA y ?_ x hx⟩
          rw [List.mem_append, or_self] at hy
          exact hy
      exact ⟨(List.perm_ext_iff_of_nodup (nodup_of_ltS _ (Union_sorted_of_nonMax A A h))
        hd).mpr hm, Union_notAfter_of_nonMax A A h⟩
    · have hex : ∃ m ∈ A, m.Start = [] := by
        by_contra hno
        refine h fun x hx e => hno ⟨x, ?_, e⟩
        rw [List.mem_append, or_self] at hx
        exact hx
      obtain ⟨m, hm, hm0⟩ := hex
      have hall := all_max_of_normalized hA hm hm0
      have hAeq : A = [MaxScope] := by
        refine eq_singleton_of_mem_iff A MaxScope hd fun x => ⟨hall x, ?_⟩
        rintro rfl
        rw [← eq_max_of_start hm0]
        exact hm
      rw [hAeq]
      exact ⟨by decide, by decide⟩
  exact ⟨sorted_perm_unique A _ key.1 key.2, key.1.map _, key.2⟩

/-- The list `[d//, a//, c/]` is normalized and duplicate-free; its union with itself
is `[a//, c/, d//]`. -/
theorem Union_idempotent_witness :
    Normalized [⟨[100, 47, 47]⟩, ⟨[97, 47, 47]⟩, ⟨[99, 47]⟩] ∧
      ([⟨[100, 47, 47]⟩, ⟨[97, 47, 47]⟩, ⟨[99, 47]⟩] : StringScopes).Nodup ∧
      Union [⟨[100, 47, 47]⟩, ⟨[97, 47, 47]⟩, ⟨[99, 47]⟩]
          [⟨[100, 47, 47]⟩, ⟨[97, 47, 47]⟩, ⟨[99, 47]⟩] =
        sortScopes [⟨[100, 47, 47]⟩, ⟨[97, 47, 47]⟩, ⟨[99, 47]⟩] ∧
      sortScopes [⟨[100, 47, 47]⟩, ⟨[97, 47, 47]⟩, ⟨[99, 47]⟩] =
        [⟨[97, 47, 47]⟩, ⟨[99, 47]⟩, ⟨[100, 47, 47]⟩] :=
  ⟨by decide, by decide,
    (Union_idempotent [⟨[100, 47, 47]⟩, ⟨[97, 47, 47]⟩, ⟨[99, 47]⟩]
      (by decide) (by decide)).1, by decide⟩

/-! ## Well-formed results -/

theorem good_singleton (x : StringScope) : Good [x] := by
  refine ⟨?_, by simp⟩
  intro a ha b hb
  rw [List.mem_singleton] at ha hb
  rw [ha, hb, Cmp_self]
  decide

theorem good_Intersection (A B : StringScopes) : Good (Intersection A B) := by
  refine ⟨fun x hx y hy => Intersection_no_strict_pre A B x y hx hy, ?_⟩
  unfold Intersection Acc.toScopes
  simp

theorem sortScopes_ne_nil {A : StringScopes} (h : A ≠ []) : sortScopes A ≠ [] := by
  intro e
  have hp := sortScopes_perm A
  rw [e] at hp
  exact h hp.symm.eq_nil

/-- The union of two non-empty lists, one of which holds only universal scopes, is the
universal scope alone. -/
theorem Union_of_all_max (A B : StringScopes) (hA : A ≠ []) (hB : B ≠ [])
    (h : (∀ x ∈ A, x = MaxScope) ∨ (∀ x ∈ B, x = MaxScope)) : Union A B = [MaxScope] := by
  unfold Union
  cases hsa : sortScopes A with
  | nil => exact absurd hsa (sortScopes_ne_nil hA)
  | cons t ts =>
    cases hsb : sortScopes B with
    | nil => exact absurd hsb (sortScopes_ne_nil hB)
    | cons r rs =>
      have ht : t ∈ A := mem_sortScopes.mp (hsa ▸ List.mem_cons_self t ts)
      have hr : r ∈ B := mem_sortScopes.mp (hsb ▸ List.mem_cons_self r rs)
      rw [unionLoop_cons_cons, if_pos]
      rcases h with h | h
      · left
        rw [h t ht]
        rfl
      · right
        rw [h r hr]
        rfl

theorem Union_ne_nil (A B : StringScopes) (hA : A ≠ []) : Union A B ≠ [] := by
  obtain ⟨a, ha⟩ := List.exists_mem_of_ne_nil A hA
  have hc : covers (Union A B) a.Start :=
    (covers_Union A B a.Start).mpr (Or.inl ((covers_iff _ _).mpr ⟨a, ha, List.prefix_refl _⟩))
  intro e
  rw [e] at hc
  exact covers_nil _ hc

/-- The union of two well-formed lists is well-formed. -/
theorem good_Union (A B : StringScopes) (hA : Good A) (hB : Good B) : Good (Union A B) := by
  by_cases h : ∀ x ∈ A ++ B, x.Start ≠ []
  · refine ⟨fun x hx y hy => ?_, Union_ne_nil A B hA.2⟩
    exact ((mem_Union_of_nonMax A B h y).mp hy).2 x ((mem_Union_of_nonMax A B h x).mp hx).1
  · have hex : ∃ m ∈ A ++ B, m.Start = [] := by
      by_contra hno
      exact h fun x hx e => hno ⟨x, hx, e⟩
    obtain ⟨m, hm, hm0⟩ := hex
    have hall : (∀ x ∈ A, x = MaxScope) ∨ (∀ x ∈ B, x = MaxScope) := by
      rcases List.mem_append.mp hm with hm | hm
      · exact Or.inl (all_max_of_normalized hA.1 hm hm0)
      · exact Or.inr (all_max_of_normalized hB.1 hm hm0)
    rw [Union_of_all_max A B hA.2 hB.2 hall]
    exact good_singleton _

/-! ## Soundness of the scope evaluator -/

theorem keyLiteral_nil (roles : List GoString) : keyLiteral roles [] = none := by
  cases roles <;> rfl

/-- The loop over `info.Var` returns the scope of the literal aligned with the first
`"key"` role, or the universal scope when there is no such role. -/
theorem keyScope_ok (Params : List Value) : ∀ (Var : List GoString) (i : Nat)
    (R : StringScopes), keyScope Params i Var = .ok R →
    (∃ p, keyLiteral Var (Params.drop i) = some p ∧ R = [⟨p⟩]) ∨
      (keyLiteral Var (Params.drop i) = none ∧ R = [MaxScope]) := by
  intro Var
  induction Var with
  | nil =>
    intro i R h
    simp only [keyScope, Except.ok.injEq] at h
    exact Or.inr ⟨rfl, h.symm⟩
  | cons item rest ih =>
    intro i R h
    by_cases hk : item = keyTag
    · simp only [keyScope, if_pos hk] at h
      cases hv : Params[i]? with
      | none =>
        rw [hv] at h
        simp at h
      | some v =>
        have hi : i < Params.length := by
          by_contra hlt
          rw [List.getElem?_eq_none (by omega)] at hv
          simp at hv
        have hd : Params.drop i = v :: Params.drop (i + 1) := by
          rw [List.drop_eq_getElem_cons hi]
          rw [List.getElem?_eq_getElem hi] at hv
          simp only [Option.some.injEq] at hv
          rw [hv]
        rw [hv] at h
        cases v with
        | str p =>
          simp only [Except.ok.injEq] at h
          refine Or.inl ⟨p, ?_, h.symm⟩
          rw [hd]
          simp [keyLiteral, hk]
        | nil => simp at h
        | bool b => simp at h
        | int n => simp at h
        | other t => simp at h
    · simp only [keyScope, if_neg hk] at h
      have := ih (i + 1) R h
      have he : keyLiteral (item :: rest) (Params.drop i) =
          keyLiteral rest (Params.drop (i + 1)) := by
        rw [← List.tail_drop]
        cases Params.drop i with
        | nil => simp [keyLiteral, keyLiteral_nil]
        | cons v vs => simp [keyLiteral, hk]
      rw [he]
      exact this

theorem evalChild_ok {child : evaluationStage} {result : Except GoError StringScopes}
    {o : Option StringScopes} (h : evalChild child result = .ok o) :
    (child.isNil = true ∧ o = none) ∨
      (child.isNil = false ∧ ∃ s, result = .ok s ∧ o = some s) := by
  unfold evalChild at h
  by_cases hn : child.isNil = true
  · rw [if_pos hn] at h
    simp only [Except.ok.injEq] at h
    exact Or.inl ⟨hn, h.symm⟩
  · rw [if_neg hn] at h
    cases result with
    | error e => simp at h
    | ok s =>
      simp only [Except.ok.injEq] at h
      exact Or.inr ⟨by simpa using hn, s, rfl, h.symm⟩

/-- Every successful evaluation returns a well-formed list that covers the keys
satisfying the constraints of the tree. -/
theorem evalScopeStage_inv (filter : GoString) : ∀ (stage : evaluationStage)
    (R : StringScopes), evalScopeStage filter stage = .ok R →
    Good R ∧ ∀ k : GoString, satisfies filter stage k = true → covers R k := by
  intro stage
  induction stage with
  | nil =>
    intro R h
    simp [evalScopeStage] at h
  | stage symbol l r token info ihl ihr =>
    intro R h
    simp only [evalScopeStage] at h
    cases hl : evalChild l (evalScopeStage filter l) with
    | error e =>
      rw [hl] at h
      simp at h
    | ok left =>
      rw [hl] at h
      simp only at h
      cases hr : evalChild r (evalScopeStage filter r) with
      | error e =>
        rw [hr] at h
        simp at h
      | ok right =>
        rw [hr] at h
        simp only at h
        have hmax : Good [MaxScope] ∧ ∀ k : GoString,
            satisfies filter (.stage symbol l r token info) k = true → covers [MaxScope] k :=
          ⟨good_singleton _, fun k _ => covers_max k⟩
        cases symbol with
        | AND =>
          rcases evalChild_ok hl with ⟨_, rfl⟩ | ⟨_, L, hL, rfl⟩
          · simp [evalScopeSwitch] at h
          · rcases evalChild_ok hr with ⟨_, rfl⟩ | ⟨_, R', hR, rfl⟩
            · simp [evalScopeSwitch] at h
            · simp only [evalScopeSwitch, Except.ok.injEq] at h
              subst h
              obtain ⟨gL, sL⟩ := ihl L hL
              obtain ⟨gR, sR⟩ := ihr R' hR
              refine ⟨good_Intersection L R', fun k hk => ?_⟩
              simp only [satisfies, Bool.and_eq_true] at hk
              exact covers_Intersection L R' gL.1 gR.1 k (sL k hk.1) (sR k hk.2)
        | OR =>
          rcases evalChild_ok hl with ⟨_, rfl⟩ | ⟨_, L, hL, rfl⟩
          · simp [evalScopeSwitch] at h
          · rcases evalChild_ok hr with ⟨_, rfl⟩ | ⟨_, R', hR, rfl⟩
            · simp [evalScopeSwitch] at h
            · simp only [evalScopeSwitch, Except.ok.injEq] at h
              subst h
              obtain ⟨gL, sL⟩ := ihl L hL
              obtain ⟨gR, sR⟩ := ihr R' hR
              refine ⟨good_Union L R' gL gR, fun k hk => ?_⟩
              simp only [satisfies, Bool.or_eq_true] at hk
              rw [covers_Union]
              rcases hk with hk | hk
              · exact Or.inl (sL k hk)
              · exact Or.inr (sR k hk)
        | NOOP =>
          simp only [evalScopeSwitch] at h
          by_cases hn : r.isNil = true
          · rw [if_pos hn] at h
            simp at h
          · rw [if_neg hn] at h
            obtain ⟨g, s⟩ := ihr R h
            exact ⟨g, fun k hk => s k (by simpa [satisfies] using hk)⟩
        | FUNCTIONAL =>
          simp only [evalScopeSwitch] at h
          by_cases hkind : token.Kind ≠ .FUNCTION
          · rw [if_pos hkind] at h
            simp at h
          · rw [if_neg hkind] at h
            by_cases hc : Contains token.funcName filter = false
            · rw [if_pos hc] at h
              simp only [Except.ok.injEq] at h
              subst h
              exact hmax
            · rw [if_neg hc] at h
              have hc' : Contains token.funcName filter = true := by simpa using hc
              cases info with
              | error e => simp at h
              | ok i =>
                simp only at h
                rcases keyScope_ok i.Params i.Var 0 R h with ⟨p, hp, rfl⟩ | ⟨_, rfl⟩
                · refine ⟨good_singleton _, fun k hk => ?_⟩
                  rw [List.drop_zero] at hp
                  simp only [satisfies, hc', if_true, hp] at hk
                  exact (covers_singleton _ _).mpr ((hasPrefix_iff _ _).mp hk)
                · exact hmax
        | COALESCE =>
          simp only [evalScopeSwitch, Except.ok.injEq] at h
          subst h
          exact hmax
        | TERNARY_TRUE =>
          simp only [evalScopeSwitch, Except.ok.injEq] at h
          subst h
          exact hmax
        | TERNARY_FALSE =>
          simp only [evalScopeSwitch, Except.ok.injEq] at h
          subst h
          exact hmax
        | other t =>
          simp only [evalScopeSwitch, Except.ok.injEq] at h
          subst h
          exact hmax

/-- C1.  Soundness of the scope analysis: whenever `EvaluateScope` succeeds on a stage
tree, every key that satisfies the prefix constraints of the tree starts with the
`Start` of one of the returned scopes. -/
theorem EvaluateScope_sound (this : EvaluableExpression) (filter : GoString)
    (scopes : StringScopes) (h : EvaluateScope this filter = .ok scopes) (k : GoString)
    (hk : satisfies filter this.evaluationStages k = true) : covers scopes k :=
  (evalScopeStage_inv filter this.evaluationStages scopes h).2 k hk

/-- On `prefix(key, "xxx") && putTime >= 10` with the filter `".prefix"` the evaluator
returns `[xxx]`; the key `xxx/1` satisfies the constraints and is covered. -/
theorem EvaluateScope_sound_witness :
    EvaluateScope prefixAndTime prefixFilter = .ok [⟨[120, 120, 120]⟩] ∧
      satisfies prefixFilter prefixAndTime.evaluationStages [120, 120, 120, 47, 49] = true ∧
      covers [⟨[120, 120, 120]⟩] [120, 120, 120, 47, 49] :=
  ⟨rfl, rfl,
    EvaluateScope_sound prefixAndTime prefixFilter [⟨[120, 120, 120]⟩] rfl
      [120, 120, 120, 47, 49] rfl⟩

/-- C3.  The laminar invariant of `Union` at the list `[a, b, ""]` and the empty list:
the second loop overwrites only the last slot with the universal scope, the result is
`[a, ""]`, and its element `a` compares -1 with its element `""`. -/
theorem Union_nested_after_first_loop :
    Union [⟨[97]⟩, ⟨[98]⟩, ⟨[]⟩] [] = [⟨[97]⟩, ⟨[]⟩] ∧
      (⟨[97]⟩ : StringScope) ∈ Union [⟨[97]⟩, ⟨[98]⟩, ⟨[]⟩] [] ∧
      (⟨[]⟩ : StringScope) ∈ Union [⟨[97]⟩, ⟨[98]⟩, ⟨[]⟩] [] ∧
      StringScope.Cmp ⟨[97]⟩ ⟨[]⟩ = -1 := by
  decide

/-- C6.  The absorbing shortcut of `Union` at the lists `[b, ""]` and `[a]`: the first
loop ends when `[a]` is consumed, before it reaches the universal scope, and the
result is `[a, ""]`, not the universal scope alone. -/
theorem Union_universal_after_first_loop :
    MaxScope ∈ ([⟨[98]⟩, ⟨[]⟩] : StringScopes) ∧
      Union [⟨[98]⟩, ⟨[]⟩] [⟨[97]⟩] = [⟨[97]⟩, ⟨[]⟩] ∧
      Union [⟨[98]⟩, ⟨[]⟩] [⟨[97]⟩] ≠ [MaxScope] := by
  decide

/-! ## Symmetry of `Cmp` -/

/-- C18.  `Cmp` is reflexive and (anti)symmetric: a scope compares 0 with itself; the
result is -1 exactly when the opposite comparison is 1, 2 exactly when the opposite
comparison is 2, and 0 exactly when the opposite comparison is 0. -/
theorem Cmp_reflexive_symmetric (a b : StringScope) :
    a.Cmp a = 0 ∧ (a.Cmp b = -1 ↔ b.Cmp a = 1) ∧ (a.Cmp b = 2 ↔ b.Cmp a = 2) ∧
      (a.Cmp b = 0 ↔ b.Cmp a = 0) := by
  refine ⟨Cmp_self a, ?_, ⟨Cmp_two_symm, Cmp_two_symm⟩, ?_⟩
  · rw [Cmp_eq_neg_one_iff, Cmp_eq_one_iff]
    constructor
    · rintro ⟨h1, h2⟩
      exact ⟨fun e => h1 e.symm, h2⟩
    · rintro ⟨h1, h2⟩
      exact ⟨fun e => h1 e.symm, h2⟩
  · rw [Cmp_eq_zero_iff, Cmp_eq_zero_iff]
    exact eq_comm

/-! ## `Union` keeps the most general bands -/

theorem starts_append (l₁ l₂ : StringScopes) : starts (l₁ ++ l₂) = starts l₁ ++ starts l₂ := by
  simp [starts]

/-- C20.  `Union` keeps the most general bands, sorted: for lists without the universal
scope the `Start` values of the result are exactly the `Start` values of the two lists
that have no strict prefix among the `Start` values of the two lists, each once, in
ascending string order; `[a//, c/, d//]` with `[a/]` gives `[a/, c/, d//]` and
`[a//, a///, d//]` with `[a/]` gives `[a/, d//]`. -/
theorem Union_most_general (A B : StringScopes) (h : ∀ x ∈ A ++ B, x.Start ≠ []) :
    (∀ s : GoString, s ∈ starts (Union A B) ↔
      (s ∈ starts A ∨ s ∈ starts B) ∧
        ∀ p : GoString, p ∈ starts A ∨ p ∈ starts B → ¬ (HasPrefix s p = true ∧ p ≠ s)) ∧
    (starts (Union A B)).Pairwise (fun a b => strLt a b = true) ∧
    Union [⟨[97, 47, 47]⟩, ⟨[99, 47]⟩, ⟨[100, 47, 47]⟩] [⟨[97, 47]⟩] =
      [⟨[97, 47]⟩, ⟨[99, 47]⟩, ⟨[100, 47, 47]⟩] ∧
    Union [⟨[97, 47, 47]⟩, ⟨[97, 47, 47, 47]⟩, ⟨[100, 47, 47]⟩] [⟨[97, 47]⟩] =
      [⟨[97, 47]⟩, ⟨[100, 47, 47]⟩] := by
  refine ⟨fun s => ?_, starts_sorted _ (Union_sorted_of_nonMax A B h), by decide, by decide⟩
  rw [mem_starts, mem_Union_of_nonMax A B h, ← List.mem_append, ← starts_append, mem_starts]
  constructor
  · rintro ⟨hs, hall⟩
    refine ⟨hs, fun p hp hps => ?_⟩
    rw [← List.mem_append, ← starts_append, mem_starts] at hp
    exact hall ⟨p⟩ hp ((Cmp_eq_one_iff _ _).mpr ⟨hps.2, (hasPrefix_iff _ _).mp hps.1⟩)
  · rintro ⟨hs, hall⟩
    refine ⟨hs, fun y hy hc => ?_⟩
    rw [Cmp_eq_one_iff] at hc
    refine hall y.Start ?_ ⟨(hasPrefix_iff _ _).mpr hc.2, hc.1⟩
    rw [← List.mem_append, ← starts_append, mem_starts]
    exact hy

/-- The lists `[a//, a///, d//]` and `[a/]` of the test suite hold no universal scope;
the `Start` values of their union are strictly ascending. -/
theorem Union_most_general_witness :
    (∀ x ∈ ([⟨[97, 47, 47]⟩, ⟨[97, 47, 47, 47]⟩, ⟨[100, 47, 47]⟩] : StringScopes) ++
        [⟨[97, 47]⟩], x.Start ≠ []) ∧
      (starts (Union [⟨[97, 47, 47]⟩, ⟨[97, 47, 47, 47]⟩, ⟨[100, 47, 47]⟩]
        [⟨[97, 47]⟩])).Pairwise (fun a b => strLt a b = true) :=
  ⟨by decide,
    (Union_most_general [⟨[97, 47, 47]⟩, ⟨[97, 47, 47, 47]⟩, ⟨[100, 47, 47]⟩] [⟨[97, 47]⟩]
      (by decide)).2.1⟩

/-! ## The rules of the scope evaluator -/

theorem evalChild_nil {child : evaluationStage} (result : Except GoError StringScopes)
    (h : child.isNil = true) : evalChild child result = .ok none := by
  simp [evalChild, h]

theorem evalChild_some {child : evaluationStage} {scopes : StringScopes}
    (h : child.isNil = false) : evalChild child (.ok scopes) = .ok (some scopes) := by
  simp [evalChild, h]

theorem evalChild_error {child : evaluationStage} {err : GoError}
    (h : child.isNil = false) : evalChild child (.error err) = .error err := by
  simp [evalChild, h]

/-- The method `evalScopeStage` on a stage whose children are evaluated without error:
the result is that of the `switch`. -/
theorem evalScopeStage_of_children (filter : GoString) (symbol : OperatorSymbol)
    (l r : evaluationStage) (token : ExpressionToken)
    (info : Except GoError FunctionCallInfo) (left right : Option StringScopes)
    (hl : evalChild l (evalScopeStage filter l) = .ok left)
    (hr : evalChild r (evalScopeStage filter r) = .ok right) :
    evalScopeStage filter (.stage symbol l r token info) =
      evalScopeSwitch filter symbol r token info left right (evalScopeStage filter r) := by
  simp only [evalScopeStage, hl, hr]

theorem keyScope_no_key (Params : List Value) : ∀ (Var : List GoString) (n : Nat),
    keyTag ∉ Var → keyScope Params n Var = .ok [MaxScope] := by
  intro Var
  induction Var with
  | nil =>
    intro n _
    rfl
  | cons item rest ih =>
    intro n h
    have hne : item ≠ keyTag := fun e => h (e ▸ List.mem_cons_self _ _)
    simp only [keyScope, if_neg hne]
    exact ih (n + 1) fun hm => h (List.mem_cons_of_mem _ hm)

/-- The loop over `info.Var` stops at the first `"key"` role, at index `j`, and looks at
`info.Params[j]`. -/
theorem keyScope_first (Params : List Value) : ∀ (Var : List GoString) (n j : Nat),
    Var[j]? = some keyTag → (∀ m, m < j → Var[m]? ≠ some keyTag) →
    keyScope Params n Var = literalScope Params[n + j]? := by
  intro Var
  induction Var with
  | nil =>
    intro n j hj _
    simp at hj
  | cons item rest ih =>
    intro n j hj hfirst
    cases j with
    | zero =>
      have hk : item = keyTag := by simpa using hj
      simp only [keyScope, if_pos hk, Nat.add_zero, literalScope]
    | succ j =>
      have hne : item ≠ keyTag := by
        have := hfirst 0 (Nat.succ_pos j)
        simpa using this
      simp only [keyScope, if_neg hne]
      rw [ih (n + 1) j (by simpa using hj)
        (fun m hm => by simpa using hfirst (m + 1) (Nat.succ_lt_succ hm))]
      congr 2
      omega

/-- C11 as stated fails: the call `prefix(other, "xxx")`, whose name contains the filter
and which has no role tagged `"key"`, is evaluated to the universal scope without
error. -/
theorem evalScopeStage_no_key_counterexample :
    Contains prefixName prefixFilter = true ∧
      keyTag ∉ [[111, 116, 104, 101, 114]] ∧
      evalScopeStage prefixFilter
          (.stage .FUNCTIONAL .nil valueLeaf ⟨.FUNCTION, prefixName⟩
            (.ok ⟨prefixName, [[111, 116, 104, 101, 114]], [.str [120, 120, 120]]⟩)) =
        .ok [MaxScope] :=
  ⟨by decide, by decide, rfl⟩

/-- C11, amended.  For a function-call stage whose resolved name contains the filter
and whose call metadata is `info`: when the literal aligned with the first `"key"` role
is not a string, `evalScopeStage` fails, and with a `FUNCTION` token and children
evaluated without error the error is `InValidError`; when no role is tagged `"key"`,
with a `FUNCTION` token and children evaluated without error it returns the universal
scope without error. -/
theorem evalScopeStage_key_literal (filter : GoString) (l r : evaluationStage)
    (token : ExpressionToken) (info : FunctionCallInfo)
    (hname : Contains token.funcName filter = true) :
    (∀ (j : Nat) (v : Value), info.Var[j]? = some keyTag →
      (∀ m, m < j → info.Var[m]? ≠ some keyTag) → info.Params[j]? = some v →
      (∀ s, v ≠ .str s) →
      (∃ err, evalScopeStage filter (.stage .FUNCTIONAL l r token (.ok info)) = .error err) ∧
        (∀ left right, token.Kind = .FUNCTION →
          evalChild l (evalScopeStage filter l) = .ok left →
          evalChild r (evalScopeStage filter r) = .ok right →
          evalScopeStage filter (.stage .FUNCTIONAL l r token (.ok info)) =
            .error .InValidError)) ∧
    (keyTag ∉ info.Var → ∀ left right, token.Kind = .FUNCTION →
      evalChild l (evalScopeStage filter l) = .ok left →
      evalChild r (evalScopeStage filter r) = .ok right →
      evalScopeStage filter (.stage .FUNCTIONAL l r token (.ok info)) = .ok [MaxScope]) := by
  have hsw : ∀ left right, token.Kind = .FUNCTION →
      evalScopeSwitch filter .FUNCTIONAL r token (.ok info) left right
        (evalScopeStage filter r) = keyScope info.Params 0 info.Var := by
    intro left right hk
    simp [evalScopeSwitch, hk, hname]
  constructor
  · intro j v hj hfirst hv hns
    have hkey : keyScope info.Params 0 info.Var = .error .InValidError := by
      rw [keyScope_first info.Params info.Var 0 j hj hfirst, Nat.zero_add, hv]
      cases v with
      | str s => exact absurd rfl (hns s)
      | nil => rfl
      | bool b => rfl
      | int n => rfl
      | other t => rfl
    have hfull : ∀ left right, token.Kind = .FUNCTION →
        evalChild l (evalScopeStage filter l) = .ok left →
        evalChild r (evalScopeStage filter r) = .ok right →
        evalScopeStage filter (.stage .FUNCTIONAL l r token (.ok info)) =
          .error .InValidError := by
      intro left right hk hl hr
      rw [evalScopeStage_of_children filter _ l r token _ left right hl hr, hsw left right hk,
        hkey]
    refine ⟨?_, hfull⟩
    cases hl : evalChild l (evalScopeStage filter l) with
    | error e => exact ⟨e, by simp only [evalScopeStage, hl]⟩
    | ok left =>
      cases hr : evalChild r (evalScopeStage filter r) with
      | error e => exact ⟨e, by simp only [evalScopeStage, hl, hr]⟩
      | ok right =>
        by_cases hk : token.Kind = .FUNCTION
        · exact ⟨_, hfull left right hk hl hr⟩
        · refine ⟨.InValidError, ?_⟩
          rw [evalScopeStage_of_children filter _ l r token _ left right hl hr]
          simp [evalScopeSwitch, hk]
  · intro hno left right hk hl hr
    rw [evalScopeStage_of_children filter _ l r token _ left right hl hr, hsw left right hk,
      keyScope_no_key info.Params info.Var 0 hno]

/-- The name of `prefix` contains the filter `".prefix"`; on the call `prefix(key, 7)`,
whose `"key"` literal is a number, the evaluator fails. -/
theorem evalScopeStage_key_literal_witness :
    Contains prefixName prefixFilter = true ∧
      ∃ err, evalScopeStage prefixFilter
        (.stage .FUNCTIONAL .nil valueLeaf ⟨.FUNCTION, prefixName⟩
          (.ok ⟨prefixName, [keyTag], [.int 7]⟩)) = .error err :=
  ⟨by decide,
    ((evalScopeStage_key_literal prefixFilter .nil valueLeaf ⟨.FUNCTION, prefixName⟩
      ⟨prefixName, [keyTag], [.int 7]⟩ (by decide)).1 0 (.int 7) rfl
      (fun m hm => absurd hm (Nat.not_lt_zero m)) rfl (fun s hs => by cases hs)).1⟩

theorem evalChild_none_of_nil {child : evaluationStage}
    {result : Except GoError StringScopes} {o : Option StringScopes}
    (h : evalChild child result = .ok o) (hn : child.isNil = true) : o = none := by
  rw [evalChild_nil result hn] at h
  simp only [Except.ok.injEq] at h
  exact h.symm

/-- C12 as stated fails: an `AND` stage without children is answered with the error
`errors.New("eval scope is error")`, which is not `InValidError`. -/
theorem evalScopeStage_malformed_counterexample :
    evalScopeStage prefixFilter
        (.stage .AND .nil .nil ⟨.other 0, []⟩ (.error (.functionInfoError 0))) =
      .error .evalScopeError ∧ GoError.evalScopeError ≠ GoError.InValidError :=
  ⟨rfl, by decide⟩

/-- C12, amended.  On a malformed stage whose present children are evaluated without
error, `evalScopeStage` returns an error and no scopes: the error
`errors.New("eval scope is error")` when an `AND` or `OR` stage lacks a left or a right
child, the error `InValidError` when a `NOOP` stage has no right child and when the
token of a `FUNCTIONAL` stage is not of kind `FUNCTION`. -/
theorem evalScopeStage_malformed (filter : GoString) (l r : evaluationStage)
    (token : ExpressionToken) (info : Except GoError FunctionCallInfo)
    (left right : Option StringScopes)
    (hl : evalChild l (evalScopeStage filter l) = .ok left)
    (hr : evalChild r (evalScopeStage filter r) = .ok right) :
    (l.isNil = true ∨ r.isNil = true →
      evalScopeStage filter (.stage .AND l r token info) = .error .evalScopeError ∧
        evalScopeStage filter (.stage .OR l r token info) = .error .evalScopeError) ∧
    (r.isNil = true →
      evalScopeStage filter (.stage .NOOP l r token info) = .error .InValidError) ∧
    (token.Kind ≠ .FUNCTION →
      evalScopeStage filter (.stage .FUNCTIONAL l r token info) = .error .InValidError) := by
  refine ⟨fun h => ?_, fun h => ?_, fun h => ?_⟩
  · rw [evalScopeStage_of_children filter _ l r token info left right hl hr,
      evalScopeStage_of_children filter _ l r token info left right hl hr]
    rcases h with h | h
    · rw [evalChild_none_of_nil hl h]
      simp [evalScopeSwitch]
    · rw [evalChild_none_of_nil hr h]
      cases left <;> simp [evalScopeSwitch]
  · rw [evalScopeStage_of_children filter _ l r token info left right hl hr]
    simp [evalScopeSwitch, h]
  · rw [evalScopeStage_of_children filter _ l r token info left right hl hr]
    simp [evalScopeSwitch, h]

/-- An `OR` stage with the right child `putTime >= 10` and no left child is answered
with `errors.New("eval scope is error")`. -/
theorem evalScopeStage_malformed_witness :
    evalChild .nil (evalScopeStage prefixFilter .nil) = .ok none ∧
      evalChild comparisonStage (evalScopeStage prefixFilter comparisonStage) =
        .ok (some [MaxScope]) ∧
      evalScopeStage prefixFilter
          (.stage .OR .nil comparisonStage ⟨.other 0, []⟩ (.error (.functionInfoError 0))) =
        .error .evalScopeError :=
  ⟨rfl, rfl,
    ((evalScopeStage_malformed prefixFilter .nil comparisonStage ⟨.other 0, []⟩
      (.error (.functionInfoError 0)) none (some [MaxScope]) rfl rfl).1 (Or.inl rfl)).2⟩

/-- C13.  Function-call leaf rule: a `FUNCTIONAL` stage with a `FUNCTION` token whose
children are evaluated without error gives the universal scope when the name of the
call does not contain the filter, and the single scope `{Start: s}` when the name
contains the filter and the literal aligned with the first role tagged `"key"` is the
string `s`. -/
theorem evalScopeStage_function_call (filter : GoString) (l r : evaluationStage)
    (token : ExpressionToken) (info : Except GoError FunctionCallInfo)
    (left right : Option StringScopes) (hk : token.Kind = .FUNCTION)
    (hl : evalChild l (evalScopeStage filter l) = .ok left)
    (hr : evalChild r (evalScopeStage filter r) = .ok right) :
    (Contains token.funcName filter = false →
      evalScopeStage filter (.stage .FUNCTIONAL l r token info) = .ok [MaxScope]) ∧
    (Contains token.funcName filter = true →
      ∀ (i : FunctionCallInfo) (j : Nat) (s : GoString), info = .ok i →
        i.Var[j]? = some keyTag → (∀ m, m < j → i.Var[m]? ≠ some keyTag) →
        i.Params[j]? = some (.str s) →
        evalScopeStage filter (.stage .FUNCTIONAL l r token info) = .ok [⟨s⟩]) := by
  constructor
  · intro hc
    rw [evalScopeStage_of_children filter _ l r token info left right hl hr]
    simp [evalScopeSwitch, hk, hc]
  · intro hc i j s hi hj hfirst hp
    rw [evalScopeStage_of_children filter _ l r token info left right hl hr, hi]
    simp only [evalScopeSwitch, hk, hc, ne_eq, not_true_eq_false, if_false]
    rw [keyScope_first i.Params i.Var 0 j hj hfirst, Nat.zero_add, hp]
    rfl

/-- On the call `prefix(key, "xxx")` of the test suite the filter `".prefix"` gives the
scope `xxx`. -/
theorem evalScopeStage_function_call_witness :
    (⟨.FUNCTION, prefixName⟩ : ExpressionToken).Kind = .FUNCTION ∧
      evalChild .nil (evalScopeStage prefixFilter .nil) = .ok none ∧
      evalChild valueLeaf (evalScopeStage prefixFilter valueLeaf) = .ok (some [MaxScope]) ∧
      evalScopeStage prefixFilter (prefixCall [120, 120, 120]) = .ok [⟨[120, 120, 120]⟩] :=
  ⟨rfl, rfl, rfl,
    (evalScopeStage_function_call prefixFilter .nil valueLeaf ⟨.FUNCTION, prefixName⟩
      (.ok ⟨prefixName, [keyTag], [.str [120, 120, 120]]⟩) none (some [MaxScope])
      rfl rfl rfl).2 (by decide) ⟨prefixName, [keyTag], [.str [120, 120, 120]]⟩ 0
      [120, 120, 120] rfl rfl (fun m hm => absurd hm (Nat.not_lt_zero m)) rfl⟩

/-- A tree without a matching call and without a malformed stage is evaluated to the
universal scope. -/
theorem evalScopeStage_unconstrained (filter : GoString) : ∀ (stage : evaluationStage),
    stage.isNil = false → unconstrained filter stage = true →
    evalScopeStage filter stage = .ok [MaxScope] := by
  intro stage
  induction stage with
  | nil =>
    intro h _
    simp [evaluationStage.isNil] at h
  | stage symbol l r token info ihl ihr =>
    intro _ hs
    simp only [unconstrained, Bool.and_eq_true] at hs
    obtain ⟨⟨hsl, hsr⟩, hsym⟩ := hs
    have hl : ∃ left, evalChild l (evalScopeStage filter l) = .ok left ∧
        (l.isNil = false → left = some [MaxScope]) := by
      by_cases hn : l.isNil = true
      · exact ⟨none, evalChild_nil _ hn, fun h => by simp [hn] at h⟩
      · have hn' : l.isNil = false := by simpa using hn
        rw [ihl hn' hsl]
        exact ⟨_, evalChild_some hn', fun _ => rfl⟩
    have hr : ∃ right, evalChild r (evalScopeStage filter r) = .ok right ∧
        (r.isNil = false → right = some [MaxScope]) := by
      by_cases hn : r.isNil = true
      · exact ⟨none, evalChild_nil _ hn, fun h => by simp [hn] at h⟩
      · have hn' : r.isNil = false := by simpa using hn
        rw [ihr hn' hsr]
        exact ⟨_, evalChild_some hn', fun _ => rfl⟩
    obtain ⟨left, hl, hleft⟩ := hl
    obtain ⟨right, hr, hright⟩ := hr
    rw [evalScopeStage_of_children filter symbol l r token info left right hl hr]
    cases symbol with
    | AND =>
      simp only [Bool.and_eq_true, Bool.not_eq_true'] at hsym
      rw [hleft hsym.1, hright hsym.2]
      rfl
    | OR =>
      simp only [Bool.and_eq_true, Bool.not_eq_true'] at hsym
      rw [hleft hsym.1, hright hsym.2]
      rfl
    | NOOP =>
      simp only [Bool.not_eq_true'] at hsym
      simp only [evalScopeSwitch, hsym]
      exact ihr hsym hsr
    | FUNCTIONAL =>
      simp only [Bool.and_eq_true, decide_eq_true_eq, Bool.not_eq_true'] at hsym
      simp [evalScopeSwitch, hsym.1, hsym.2]
    | COALESCE => rfl
    | TERNARY_TRUE => rfl
    | TERNARY_FALSE => rfl
    | other t => rfl

/-- C14.  A predicate with no matching prefix call is unconstrained: on a stage tree in
which every `AND` and `OR` stage has both children, every `NOOP` stage a right child,
every `FUNCTIONAL` stage a `FUNCTION` token, and no call has a name that contains the
filter, `EvaluateScope` returns the universal scope alone, without error; the
evaluation takes no variables. -/
theorem EvaluateScope_unconstrained (this : EvaluableExpression) (filter : GoString)
    (hroot : this.evaluationStages.isNil = false)
    (hshape : unconstrained filter this.evaluationStages = true) :
    EvaluateScope this filter = .ok [MaxScope] :=
  evalScopeStage_unconstrained filter this.evaluationStages hroot hshape

/-- The tree of `putTime >= 10 && putTime <= 100` of the test suite has no matching call
and no malformed stage, and is evaluated to the universal scope. -/
theorem EvaluateScope_unconstrained_witness :
    unconstrained prefixFilter
        (.stage .AND comparisonStage comparisonStage ⟨.other 0, []⟩
          (.error (.functionInfoError 0))) = true ∧
      EvaluateScope ⟨true, .stage .AND comparisonStage comparisonStage ⟨.other 0, []⟩
          (.error (.functionInfoError 0))⟩ prefixFilter = .ok [MaxScope] :=
  ⟨rfl,
    EvaluateScope_unconstrained ⟨true, .stage .AND comparisonStage comparisonStage
      ⟨.other 0, []⟩ (.error (.functionInfoError 0))⟩ prefixFilter rfl rfl⟩

/-! ## The value evaluator: short circuit, type checks, errors -/

/-- The method `evaluateStage` after the left child is evaluated without error and the
short-circuit block has not returned. -/
theorem evaluateStage_goesOn (this : EvaluableExpression) (parameters : Option Parameters)
    (symbol : OperatorSymbol) (leftStage rightStage : ValueStage)
    (operator : Value → Value → Option Parameters → Result)
    (lc rc : Option (Value → Bool)) (tc : Option (Value → Value → Bool)) (format : GoString)
    (left right0 : Value)
    (hleft : evalLeft leftStage (evaluateStage this parameters leftStage) = (left, none))
    (hgo : shortCircuit symbol left = .goesOn right0) :
    evaluateStage this parameters
        (.stage symbol leftStage rightStage operator lc rc tc format) =
      match evalRight right0 rightStage (evaluateStage this parameters rightStage) with
      | (_, some err) => (.nil, some err)
      | (right, none) =>
        checkAndApply this.ChecksTypes symbol operator lc rc tc format left right parameters := by
  simp only [evaluateStage, hleft, hgo]

/-- The method `evaluateStage` after both children are evaluated (or skipped) without
error and the short-circuit block has not returned. -/
theorem evaluateStage_of_children (this : EvaluableExpression)
    (parameters : Option Parameters) (symbol : OperatorSymbol)
    (leftStage rightStage : ValueStage)
    (operator : Value → Value → Option Parameters → Result)
    (lc rc : Option (Value → Bool)) (tc : Option (Value → Value → Bool)) (format : GoString)
    (left right0 right : Value)
    (hleft : evalLeft leftStage (evaluateStage this parameters leftStage) = (left, none))
    (hgo : shortCircuit symbol left = .goesOn right0)
    (hright : evalRight right0 rightStage (evaluateStage this parameters rightStage) =
      (right, none)) :
    evaluateStage this parameters
        (.stage symbol leftStage rightStage operator lc rc tc format) =
      checkAndApply this.ChecksTypes symbol operator lc rc tc format left right parameters := by
  rw [evaluateStage_goesOn this parameters symbol leftStage rightStage operator lc rc tc format
    left right0 hleft hgo, hright]

/-- C15.  Short circuit of the value evaluator: when the left child is evaluated
without error, an `AND` stage whose left value is `false` gives `(false, nil)`, an `OR`
stage whose left value is `true` gives `(true, nil)`, a `COALESCE` stage whose left
value is not nil gives that value; the result is the same for every right subtree,
every operator and every type check, so none of them is evaluated or invoked. -/
theorem evaluateStage_shortCircuit (this : EvaluableExpression)
    (parameters : Option Parameters) (leftStage rightStage : ValueStage)
    (operator : Value → Value → Option Parameters → Result)
    (lc rc : Option (Value → Bool)) (tc : Option (Value → Value → Bool)) (format : GoString)
    (left : Value)
    (hleft : evalLeft leftStage (evaluateStage this parameters leftStage) = (left, none)) :
    (isShortCircuitable .AND = true ∧ (left = .bool false →
      evaluateStage this parameters (.stage .AND leftStage rightStage operator lc rc tc format) =
        (.bool false, none))) ∧
    (isShortCircuitable .OR = true ∧ (left = .bool true →
      evaluateStage this parameters (.stage .OR leftStage rightStage operator lc rc tc format) =
        (.bool true, none))) ∧
    (isShortCircuitable .COALESCE = true ∧ (left ≠ .nil →
      evaluateStage this parameters
          (.stage .COALESCE leftStage rightStage operator lc rc tc format) =
        (left, none))) := by
  refine ⟨⟨rfl, fun h => ?_⟩, ⟨rfl, fun h => ?_⟩, ⟨rfl, fun h => ?_⟩⟩
  · simp only [evaluateStage, hleft, shortCircuit, isShortCircuitable, h, if_true]
  · simp only [evaluateStage, hleft, shortCircuit, isShortCircuitable, h, if_true]
  · simp only [evaluateStage, hleft, shortCircuit, isShortCircuitable, if_true, ne_eq, h,
      not_false_eq_true]

/-- The left child `false` of an `AND` stage is evaluated without error, and the stage
gives `(false, nil)` although the evaluation of its right child fails. -/
theorem evaluateStage_shortCircuit_witness :
    evalLeft (literalStage (.bool false))
        (evaluateStage checkingExpression none (literalStage (.bool false))) =
      (.bool false, none) ∧
    evaluateStage checkingExpression none failingStage = (.nil, some (.operatorError 0)) ∧
    evaluateStage checkingExpression none
        (.stage .AND (literalStage (.bool false)) failingStage ternaryIf none none none []) =
      (.bool false, none) :=
  ⟨rfl, rfl,
    (evaluateStage_shortCircuit checkingExpression none (literalStage (.bool false))
      failingStage ternaryIf none none none [] (.bool false) rfl).1.2 rfl⟩

theorem typeCheck_eq (check : Option (Value → Bool)) (value : Value)
    (symbol : OperatorSymbol) (format : GoString) :
    typeCheck check value symbol format =
      if rejects check value then some (.typeError format value symbol) else none := by
  cases check with
  | none => rfl
  | some c =>
    cases h : c value <;> simp [typeCheck, rejects, h]

/-- The type checks and the call of the operator: a rejected operand gives the type
error and a nil value, otherwise the result is that of the operator. -/
theorem checkAndApply_eq (ChecksTypes : Bool) (symbol : OperatorSymbol)
    (operator : Value → Value → Option Parameters → Result)
    (lc rc : Option (Value → Bool)) (tc : Option (Value → Value → Bool)) (format : GoString)
    (left right : Value) (parameters : Option Parameters) :
    checkAndApply ChecksTypes symbol operator lc rc tc format left right parameters =
      if ChecksTypes = true ∧ checksReject lc rc tc left right = true then
        (.nil, some (.typeError format (offendingValue lc tc left right) symbol))
      else operator left right parameters := by
  unfold checkAndApply
  cases ChecksTypes with
  | false => simp
  | true =>
    cases tc with
    | some check =>
      cases h : check left right <;> simp [checksReject, offendingValue, h]
    | none =>
      simp only [typeCheck_eq, checksReject, offendingValue, if_true, true_and,
        Bool.or_eq_true]
      cases hl : rejects lc left <;> cases hr : rejects rc right <;> simp

/-- C16.  Type-check protocol: after the children are evaluated (or skipped) without
error and without an early return of the short-circuit block, a stage of an expression
that checks types returns the type error with a nil value, whatever the operator, when
the joint check is set and rejects the operands, or is unset and a present left check
rejects the left operand or a present right check rejects the right operand; otherwise,
and always when types are not checked, its result is that of the operator. -/
theorem evaluateStage_typeCheck (this : EvaluableExpression)
    (parameters : Option Parameters) (symbol : OperatorSymbol)
    (leftStage rightStage : ValueStage)
    (operator : Value → Value → Option Parameters → Result)
    (lc rc : Option (Value → Bool)) (tc : Option (Value → Value → Bool)) (format : GoString)
    (left right0 right : Value)
    (hleft : evalLeft leftStage (evaluateStage this parameters leftStage) = (left, none))
    (hgo : shortCircuit symbol left = .goesOn right0)
    (hright : evalRight right0 rightStage (evaluateStage this parameters rightStage) =
      (right, none)) :
    (this.ChecksTypes = true → checksReject lc rc tc left right = true →
      evaluateStage this parameters
          (.stage symbol leftStage rightStage operator lc rc tc format) =
        (.nil, some (.typeError format (offendingValue lc tc left right) symbol))) ∧
    (this.ChecksTypes = true → checksReject lc rc tc left right = false →
      evaluateStage this parameters
          (.stage symbol leftStage rightStage operator lc rc tc format) =
        operator left right parameters) ∧
    (this.ChecksTypes = false →
      evaluateStage this parameters
          (.stage symbol leftStage rightStage operator lc rc tc format) =
        operator left right parameters) := by
  rw [evaluateStage_of_children this parameters symbol leftStage rightStage operator lc rc tc
    format left right0 right hleft hgo hright, checkAndApply_eq]
  refine ⟨fun h1 h2 => ?_, fun h1 h2 => ?_, fun h1 => ?_⟩
  · rw [if_pos ⟨h1, h2⟩]
  · rw [if_neg (by simp [h2])]
  · rw [if_neg (by simp [h1])]

/-- A stage over the children `1` and `true` whose right check accepts numbers only: the
children are evaluated without error, the check rejects `true`, and the stage returns
the type error citing `true` although its operator would return a value. -/
theorem evaluateStage_typeCheck_witness :
    evalLeft (literalStage (.int 1))
        (evaluateStage checkingExpression none (literalStage (.int 1))) = (.int 1, none) ∧
    shortCircuit (.other 1) (.int 1) = .goesOn .nil ∧
    evalRight .nil (literalStage (.bool true))
        (evaluateStage checkingExpression none (literalStage (.bool true))) =
      (.bool true, none) ∧
    evaluateStage checkingExpression none
        (.stage (.other 1) (literalStage (.int 1)) (literalStage (.bool true))
          (fun l _ _ => (l, none)) none (some (fun v => decide (v = .int 1))) none [37]) =
      (.nil, some (.typeError [37] (.bool true) (.other 1))) :=
  ⟨rfl, rfl, rfl,
    (evaluateStage_typeCheck checkingExpression none (.other 1) (literalStage (.int 1))
      (literalStage (.bool true)) (fun l _ _ => (l, none)) none
      (some (fun v => decide (v = .int 1))) none [37] (.int 1) .nil (.bool true)
      rfl rfl rfl).1 rfl rfl⟩

/-- C17.  Fail-fast propagation without partial result.  In `evaluateStage`: an error
of the left child is returned with a nil value, whatever the right child and the
operator; an error of the right child, when it is evaluated, is returned with a nil
value, whatever the operator.  In `evalScopeStage`: an error of the left child is
returned, whatever the right child and the symbol; an error of the right child is
returned, whatever the symbol; and a result of `EvaluateScope` that is an error carries
no scopes. -/
theorem evaluators_fail_fast :
    (∀ (this : EvaluableExpression) (parameters : Option Parameters)
        (symbol : OperatorSymbol) (leftStage rightStage : ValueStage)
        (operator : Value → Value → Option Parameters → Result)
        (lc rc : Option (Value → Bool)) (tc : Option (Value → Value → Bool))
        (format : GoString) (v : Value) (err : EvalError),
      leftStage.isNil = false →
      evaluateStage this parameters leftStage = (v, some err) →
      evaluateStage this parameters
          (.stage symbol leftStage rightStage operator lc rc tc format) =
        (.nil, some err)) ∧
    (∀ (this : EvaluableExpression) (parameters : Option Parameters)
        (symbol : OperatorSymbol) (leftStage rightStage : ValueStage)
        (operator : Value → Value → Option Parameters → Result)
        (lc rc : Option (Value → Bool)) (tc : Option (Value → Value → Bool))
        (format : GoString) (left right0 v : Value) (err : EvalError),
      evalLeft leftStage (evaluateStage this parameters leftStage) = (left, none) →
      shortCircuit symbol left = .goesOn right0 → right0 ≠ shortCircuitHolder →
      rightStage.isNil = false →
      evaluateStage this parameters rightStage = (v, some err) →
      evaluateStage this parameters
          (.stage symbol leftStage rightStage operator lc rc tc format) =
        (.nil, some err)) ∧
    (∀ (filter : GoString) (symbol : OperatorSymbol) (l r : evaluationStage)
        (token : ExpressionToken) (info : Except GoError FunctionCallInfo) (err : GoError),
      l.isNil = false → evalScopeStage filter l = .error err →
      evalScopeStage filter (.stage symbol l r token info) = .error err) ∧
    (∀ (filter : GoString) (symbol : OperatorSymbol) (l r : evaluationStage)
        (token : ExpressionToken) (info : Except GoError FunctionCallInfo)
        (left : Option StringScopes) (err : GoError),
      evalChild l (evalScopeStage filter l) = .ok left →
      r.isNil = false → evalScopeStage filter r = .error err →
      evalScopeStage filter (.stage symbol l r token info) = .error err) ∧
    (∀ (this : EvaluableExpression) (filter : GoString) (err : GoError),
      EvaluateScope this filter = .error err →
      ∀ scopes : StringScopes, EvaluateScope this filter ≠ .ok scopes) := by
  refine ⟨?_, ?_, ?_, ?_, ?_⟩
  · intro this parameters symbol leftStage rightStage operator lc rc tc format v err hn he
    simp only [evaluateStage, evalLeft, hn, he]
    simp
  · intro this parameters symbol leftStage rightStage operator lc rc tc format left right0 v
      err hleft hgo hne hn he
    rw [evaluateStage_goesOn this parameters symbol leftStage rightStage operator lc rc tc
      format left right0 hleft hgo]
    simp [evalRight, hne, hn, he]
  · intro filter symbol l r token info err hn he
    simp only [evalScopeStage, he, evalChild_error hn]
  · intro filter symbol l r token info left err hl hn he
    simp only [evalScopeStage, hl, he, evalChild_error hn]
  · intro this filter err he scopes hs
    rw [he] at hs
    cases hs

/-- The errors of a failing left child and of a failing right child of a comparison are
returned with a nil value by `evaluateStage`, and the error of a malformed left child is
returned by `evalScopeStage`. -/
theorem evaluators_fail_fast_witness :
    evaluateStage checkingExpression none
        (.stage (.other 1) failingStage (literalStage (.int 1)) (fun l _ _ => (l, none))
          none none none []) = (.nil, some (.operatorError 0)) ∧
    evaluateStage checkingExpression none
        (.stage (.other 1) (literalStage (.int 1)) failingStage (fun l _ _ => (l, none))
          none none none []) = (.nil, some (.operatorError 0)) ∧
    evalScopeStage prefixFilter
        (.stage .OR (.stage .NOOP .nil .nil ⟨.other 0, []⟩ (.error (.functionInfoError 0)))
          comparisonStage ⟨.other 0, []⟩ (.error (.functionInfoError 0))) =
      .error .InValidError :=
  ⟨evaluators_fail_fast.1 checkingExpression none (.other 1) failingStage
      (literalStage (.int 1)) (fun l _ _ => (l, none)) none none none [] .nil
      (.operatorError 0) rfl rfl,
    evaluators_fail_fast.2.1 checkingExpression none (.other 1) (literalStage (.int 1))
      failingStage (fun l _ _ => (l, none)) none none none [] (.int 1) .nil .nil
      (.operatorError 0) rfl rfl (by decide) rfl rfl,
    evaluators_fail_fast.2.2.1 prefixFilter .OR
      (.stage .NOOP .nil .nil ⟨.other 0, []⟩ (.error (.functionInfoError 0)))
      comparisonStage ⟨.other 0, []⟩ (.error (.functionInfoError 0)) .InValidError rfl rfl⟩

/-! ## The ternary -/

theorem evalLeft_of_not_nil {stage : ValueStage} (result : Result)
    (h : stage.isNil = false) : evalLeft stage result = result := by
  simp [evalLeft, h]

theorem evalRight_holder (rightStage : ValueStage) (result : Result) :
    evalRight shortCircuitHolder rightStage result = (shortCircuitHolder, none) := by
  simp [evalRight]

theorem evalRight_of_not_nil {rightStage : ValueStage} (result : Result)
    (h : rightStage.isNil = false) : evalRight .nil rightStage result = result := by
  simp [evalRight, h, shortCircuitHolder]

theorem checkAndApply_of_accept (ChecksTypes : Bool) (symbol : OperatorSymbol)
    (operator : Value → Value → Option Parameters → Result)
    (lc rc : Option (Value → Bool)) (tc : Option (Value → Value → Bool)) (format : GoString)
    (left right : Value) (parameters : Option Parameters)
    (h : ChecksTypes = false ∨ checksReject lc rc tc left right = false) :
    checkAndApply ChecksTypes symbol operator lc rc tc format left right parameters =
      operator left right parameters := by
  rw [checkAndApply_eq, if_neg]
  rintro ⟨h1, h2⟩
  rcases h with h | h
  · rw [h] at h1
    cases h1
  · rw [h] at h2
    cases h2

/-- C19 as stated fails when types are checked and a check of the condition stage
rejects its operands: with operators as assumed, the condition `false` and the branches
`1` and `2`, the ternary returns the type error and not the value `2` of the second
branch. -/
theorem ternary_counterexample :
    conditionOperator ternaryIf ∧ branchOperator ternaryElse ∧
      evaluateStage checkingExpression none (literalStage (.bool false)) =
        (.bool false, none) ∧
      evaluateStage checkingExpression none (literalStage (.int 2)) = (.int 2, none) ∧
      evaluateStage checkingExpression none
          (ternary (literalStage (.bool false)) (literalStage (.int 1)) (literalStage (.int 2))
            ternaryIf ternaryElse ⟨some (fun _ => false), none, none, [37]⟩ noChecks) =
        (.nil, some (.typeError [37] (.bool false) .TERNARY_TRUE)) := by
  refine ⟨⟨fun _ _ => rfl, fun left _ _ h => ?_⟩, ⟨fun left _ _ h => ?_, fun _ _ => rfl⟩,
    rfl, rfl, rfl⟩
  · simp [ternaryIf, h]
  · simp [ternaryElse, h]

/-- C19, amended.  Ternary skip-marker protocol: assume the condition operator returns
its right operand when left is `true` and nil otherwise, the branch operator returns
left when left is not nil and right otherwise, and types are not checked or the checks
of the two ternary stages accept their operands.  Then a ternary `c ? X : Y` whose
condition is evaluated to `false` returns the value of `Y`, whatever `X` is (the
condition stage gets the skip marker as right operand); and one whose condition is
evaluated to `true` and whose `X` is evaluated to a value `v` that is not nil returns
`v`, whatever `Y` is. -/
theorem ternary_skip (this : EvaluableExpression) (parameters : Option Parameters)
    (c X Y : ValueStage) (condition branch : Value → Value → Option Parameters → Result)
    (conditionChecks branchChecks : TypeChecks)
    (hcond : conditionOperator condition) (hbranch : branchOperator branch)
    (hc : c.isNil = false) :
    (∀ w : Value, evaluateStage this parameters c = (.bool false, none) →
      Y.isNil = false → evaluateStage this parameters Y = (w, none) →
      (this.ChecksTypes = false ∨
        (checksReject conditionChecks.leftTypeCheck conditionChecks.rightTypeCheck
            conditionChecks.typeCheck (.bool false) shortCircuitHolder = false ∧
          checksReject branchChecks.leftTypeCheck branchChecks.rightTypeCheck
            branchChecks.typeCheck .nil w = false)) →
      evaluateStage this parameters
          (ternary c X Y condition branch conditionChecks branchChecks) = (w, none)) ∧
    (∀ v : Value, evaluateStage this parameters c = (.bool true, none) →
      X.isNil = false → evaluateStage this parameters X = (v, none) → v ≠ .nil →
      (this.ChecksTypes = false ∨
        (checksReject conditionChecks.leftTypeCheck conditionChecks.rightTypeCheck
            conditionChecks.typeCheck (.bool true) v = false ∧
          checksReject branchChecks.leftTypeCheck branchChecks.rightTypeCheck
            branchChecks.typeCheck v shortCircuitHolder = false)) →
      evaluateStage this parameters
          (ternary c X Y condition branch conditionChecks branchChecks) = (v, none)) := by
  constructor
  · intro w hcv hY hYv hchk
    have hT : evaluateStage this parameters
        (.stage .TERNARY_TRUE c X condition conditionChecks.leftTypeCheck
          conditionChecks.rightTypeCheck conditionChecks.typeCheck
          conditionChecks.typeErrorFormat) = (.nil, none) := by
      rw [evaluateStage_of_children this parameters .TERNARY_TRUE c X condition _ _ _ _
        (.bool false) shortCircuitHolder shortCircuitHolder
        (by rw [evalLeft_of_not_nil _ hc, hcv]) rfl (evalRight_holder _ _),
        checkAndApply_of_accept _ _ _ _ _ _ _ _ _ _ (hchk.imp id And.left)]
      exact hcond.2 _ _ _ (by decide)
    unfold ternary
    rw [evaluateStage_of_children this parameters .TERNARY_FALSE _ Y branch _ _ _ _
      .nil .nil w (by simp only [evalLeft, ValueStage.isNil, hT]; rfl) rfl
      (by rw [evalRight_of_not_nil _ hY, hYv]),
      checkAndApply_of_accept _ _ _ _ _ _ _ _ _ _ (hchk.imp id And.right)]
    exact hbranch.2 _ _
  · intro v hcv hX hXv hv hchk
    have hT : evaluateStage this parameters
        (.stage .TERNARY_TRUE c X condition conditionChecks.leftTypeCheck
          conditionChecks.rightTypeCheck conditionChecks.typeCheck
          conditionChecks.typeErrorFormat) = (v, none) := by
      rw [evaluateStage_of_children this parameters .TERNARY_TRUE c X condition _ _ _ _
        (.bool true) .nil v (by rw [evalLeft_of_not_nil _ hc, hcv]) rfl
        (by rw [evalRight_of_not_nil _ hX, hXv]),
        checkAndApply_of_accept _ _ _ _ _ _ _ _ _ _ (hchk.imp id And.left)]
      exact hcond.1 _ _
    have hgo : shortCircuit .TERNARY_FALSE v = .goesOn shortCircuitHolder := by
      simp [shortCircuit, isShortCircuitable, hv]
    unfold ternary
    rw [evaluateStage_of_children this parameters .TERNARY_FALSE _ Y branch _ _ _ _
      v shortCircuitHolder shortCircuitHolder (by simp only [evalLeft, ValueStage.isNil, hT]; rfl) hgo
      (evalRight_holder _ _),
      checkAndApply_of_accept _ _ _ _ _ _ _ _ _ _ (hchk.imp id And.right)]
    exact hbranch.1 _ _ _ hv

/-- With operators as assumed and without type checks, the ternary `false ? X : 2` with
a failing `X` returns `2`. -/
theorem ternary_skip_witness :
    conditionOperator ternaryIf ∧ branchOperator ternaryElse ∧
      (literalStage (.bool false)).isNil = false ∧
      evaluateStage checkingExpression none
          (ternary (literalStage (.bool false)) failingStage (literalStage (.int 2))
            ternaryIf ternaryElse noChecks noChecks) = (.int 2, none) :=
  have hcond : conditionOperator ternaryIf :=
    ⟨fun _ _ => rfl, fun left _ _ h => by simp [ternaryIf, h]⟩
  have hbranch : branchOperator ternaryElse :=
    ⟨fun left _ _ h => by simp [ternaryElse, h], fun _ _ => rfl⟩
  ⟨hcond, hbranch, rfl,
    (ternary_skip checkingExpression none (literalStage (.bool false)) failingStage
      (literalStage (.int 2)) ternaryIf ternaryElse noChecks noChecks hcond hbranch rfl).1
      (.int 2) rfl rfl rfl (Or.inr ⟨rfl, rfl⟩)⟩

/-! ## `Intersection` keeps the most specific bands -/

theorem scope_mk_ne_max {s : GoString} (h : s ≠ []) : (⟨s⟩ : StringScope) ≠ MaxScope := by
  intro e
  exact h (congrArg StringScope.Start e)

/-- C21.  `Intersection` keeps the most specific bands, sorted: when the two lists
together hold a scope that is not universal, the `Start` values of the result are
exactly the non-empty `Start` values of the two lists that have no strict extension
among the `Start` values of the two lists, each once, in ascending string order;
otherwise the result is the universal scope alone; `[a//, c/, d//]` with `[a///]` gives
`[a///, c/, d//]` and `[xxx]` with `[7/]` gives `[7/, xxx]`. -/
theorem Intersection_most_specific (A B : StringScopes) :
    ((∃ y ∈ A ++ B, y.Start ≠ []) →
      (∀ s : GoString, s ∈ starts (Intersection A B) ↔
        s ≠ [] ∧ (s ∈ starts A ∨ s ∈ starts B) ∧
          ∀ p : GoString, p ∈ starts A ∨ p ∈ starts B → ¬ (HasPrefix p s = true ∧ p ≠ s)) ∧
      (starts (Intersection A B)).Pairwise (fun a b => strLt a b = true)) ∧
    ((∀ y ∈ A ++ B, y.Start = []) → Intersection A B = [MaxScope]) ∧
    Intersection [⟨[97, 47, 47]⟩, ⟨[99, 47]⟩, ⟨[100, 47, 47]⟩] [⟨[97, 47, 47, 47]⟩] =
      [⟨[97, 47, 47, 47]⟩, ⟨[99, 47]⟩, ⟨[100, 47, 47]⟩] ∧
    Intersection [⟨[120, 120, 120]⟩] [⟨[55, 47]⟩] = [⟨[55, 47]⟩, ⟨[120, 120, 120]⟩] := by
  refine ⟨fun hex => ⟨fun s => ?_, starts_sorted _ (Intersection_sorted A B)⟩, fun hall => ?_,
    by decide, by decide⟩
  · obtain ⟨y, hy, hy0⟩ := hex
    rw [mem_starts, mem_Intersection]
    constructor
    · rintro ⟨hmem, hno⟩
      have hs : s ≠ [] := by
        intro e
        subst e
        exact hno y hy (Cmp_max_eq_one hy0)
      refine ⟨hs, ?_, fun p hp hps => ?_⟩
      · rcases hmem with h | h | h
        · exact absurd h (scope_mk_ne_max hs)
        · exact Or.inl ((mem_starts A s).mpr h)
        · exact Or.inr ((mem_starts B s).mpr h)
      · have hp' : (⟨p⟩ : StringScope) ∈ A ++ B := by
          rw [List.mem_append, ← mem_starts, ← mem_starts]
          exact hp
        exact hno ⟨p⟩ hp' ((Cmp_eq_one_iff _ _).mpr
          ⟨fun e => hps.2 e.symm, (hasPrefix_iff _ _).mp hps.1⟩)
    · rintro ⟨_, hmem, hno⟩
      refine ⟨Or.inr ?_, fun z hz hc => ?_⟩
      · rw [← mem_starts, ← mem_starts]
        exact hmem
      · rw [Cmp_eq_one_iff] at hc
        refine hno z.Start ?_ ⟨(hasPrefix_iff _ _).mpr hc.2, fun e => hc.1 e.symm⟩
        rw [mem_starts, mem_starts, ← List.mem_append]
        exact hz
  · refine eq_singleton_of_mem_iff _ _ (nodup_of_ltS _ (Intersection_sorted A B)) fun x => ?_
    rw [mem_Intersection]
    constructor
    · rintro ⟨hmem, _⟩
      rcases hmem with h | h | h
      · exact h
      · exact eq_max_of_start (hall x (List.mem_append_left _ h))
      · exact eq_max_of_start (hall x (List.mem_append_right _ h))
    · rintro rfl
      exact ⟨Or.inl rfl, fun z hz => Cmp_max_ne_one _ (hall z hz)⟩

/-- The lists `[a//, a///, d//]` and `[a/]` of the test suite hold a scope that is not
universal; the `Start` values of their intersection are strictly ascending, and the
intersection of `[""]` with the empty list is the universal scope alone. -/
theorem Intersection_most_specific_witness :
    (∃ y ∈ ([⟨[97, 47, 47]⟩, ⟨[97, 47, 47, 47]⟩, ⟨[100, 47, 47]⟩] : StringScopes) ++
        [⟨[97, 47]⟩], y.Start ≠ []) ∧
      (starts (Intersection [⟨[97, 47, 47]⟩, ⟨[97, 47, 47, 47]⟩, ⟨[100, 47, 47]⟩]
        [⟨[97, 47]⟩])).Pairwise (fun a b => strLt a b = true) ∧
      Intersection [⟨[]⟩] [] = [MaxScope] :=
  ⟨by decide,
    ((Intersection_most_specific [⟨[97, 47, 47]⟩, ⟨[97, 47, 47, 47]⟩, ⟨[100, 47, 47]⟩]
      [⟨[97, 47]⟩]).1 (by decide)).2,
    (Intersection_most_specific [⟨[]⟩] []).2.1 (by decide)⟩

/-! ## The result invariant of the scope evaluator -/

/-- The union of two well-formed lists is strictly ascending. -/
theorem Union_sorted_of_good (A B : StringScopes) (hA : Good A) (hB : Good B) :
    (Union A B).Pairwise ltS := by
  by_cases h : ∀ x ∈ A ++ B, x.Start ≠ []
  · exact Union_sorted_of_nonMax A B h
  · have hex : ∃ m ∈ A ++ B, m.Start = [] := by
      by_contra hno
      exact h fun x hx e => hno ⟨x, hx, e⟩
    obtain ⟨m, hm, hm0⟩ := hex
    have hall : (∀ x ∈ A, x = MaxScope) ∨ (∀ x ∈ B, x = MaxScope) := by
      rcases List.mem_append.mp hm with hm | hm
      · exact Or.inl (all_max_of_normalized hA.1 hm hm0)
      · exact Or.inr (all_max_of_normalized hB.1 hm hm0)
    rw [Union_of_all_max A B hA.2 hB.2 hall]
    exact List.pairwise_singleton _ _

/-- Every successful evaluation returns a strictly ascending list. -/
theorem evalScopeStage_sorted (filter : GoString) : ∀ (stage : evaluationStage)
    (R : StringScopes), evalScopeStage filter stage = .ok R → R.Pairwise ltS := by
  intro stage
  induction stage with
  | nil =>
    intro R h
    simp [evalScopeStage] at h
  | stage symbol l r token info _ ihr =>
    intro R h
    simp only [evalScopeStage] at h
    cases hl : evalChild l (evalScopeStage filter l) with
    | error e =>
      rw [hl] at h
      simp at h
    | ok left =>
      rw [hl] at h
      simp only at h
      cases hr : evalChild r (evalScopeStage filter r) with
      | error e =>
        rw [hr] at h
        simp at h
      | ok right =>
        rw [hr] at h
        simp only at h
        cases symbol with
        | AND =>
          rcases evalChild_ok hl with ⟨_, rfl⟩ | ⟨_, L, _, rfl⟩
          · simp [evalScopeSwitch] at h
          · rcases evalChild_ok hr with ⟨_, rfl⟩ | ⟨_, R', _, rfl⟩
            · simp [evalScopeSwitch] at h
            · simp only [evalScopeSwitch, Except.ok.injEq] at h
              subst h
              exact Intersection_sorted L R'
        | OR =>
          rcases evalChild_ok hl with ⟨_, rfl⟩ | ⟨_, L, hL, rfl⟩
          · simp [evalScopeSwitch] at h
          · rcases evalChild_ok hr with ⟨_, rfl⟩ | ⟨_, R', hR, rfl⟩
            · simp [evalScopeSwitch] at h
            · simp only [evalScopeSwitch, Except.ok.injEq] at h
              subst h
              exact Union_sorted_of_good L R' (evalScopeStage_inv filter l L hL).1
                (evalScopeStage_inv filter r R' hR).1
        | NOOP =>
          simp only [evalScopeSwitch] at h
          by_cases hn : r.isNil = true
          · rw [if_pos hn] at h
            simp at h
          · rw [if_neg hn] at h
            exact ihr R h
        | FUNCTIONAL =>
          simp only [evalScopeSwitch] at h
          by_cases hkind : token.Kind ≠ .FUNCTION
          · rw [if_pos hkind] at h
            simp at h
          · rw [if_neg hkind] at h
            by_cases hc : Contains token.funcName filter = false
            · rw [if_pos hc] at h
              simp only [Except.ok.injEq] at h
              subst h
              exact List.pairwise_singleton _ _
            · rw [if_neg hc] at h
              cases info with
              | error e => simp at h
              | ok i =>
                simp only at h
                rcases keyScope_ok i.Params i.Var 0 R h with ⟨p, _, rfl⟩ | ⟨_, rfl⟩
                · exact List.pairwise_singleton _ _
                · exact List.pairwise_singleton _ _
        | COALESCE =>
          simp only [evalScopeSwitch, Except.ok.injEq] at h
          subst h
          exact List.pairwise_singleton _ _
        | TERNARY_TRUE =>
          simp only [evalScopeSwitch, Except.ok.injEq] at h
          subst h
          exact List.pairwise_singleton _ _
        | TERNARY_FALSE =>
          simp only [evalScopeSwitch, Except.ok.injEq] at h
          subst h
          exact List.pairwise_singleton _ _
        | other t =>
          simp only [evalScopeSwitch, Except.ok.injEq] at h
          subst h
          exact List.pairwise_singleton _ _

theorem starts_nodup (l : StringScopes) (h : l.Pairwise ltS) : (starts l).Nodup := by
  refine List.Pairwise.imp ?_ (starts_sorted l h)
  intro a b hab e
  rw [e, strLt_irrefl] at hab
  exact absurd hab (by simp)

/-- C22.  Result invariant of the scope evaluator: whenever `EvaluateScope` returns
without error, the returned list is not empty, holds no two elements with the same
`Start`, holds no two elements that compare -1 or 1, so that the universal scope, when
present, is the only element, and is in ascending order of `Start`, which is also the
order `sort.Sort` establishes. -/
theorem EvaluateScope_result_invariant (this : EvaluableExpression) (filter : GoString)
    (scopes : StringScopes) (h : EvaluateScope this filter = .ok scopes) :
    scopes ≠ [] ∧ (starts scopes).Nodup ∧
      (∀ x ∈ scopes, ∀ y ∈ scopes, x.Cmp y ≠ -1 ∧ x.Cmp y ≠ 1) ∧
      (MaxScope ∈ scopes → scopes = [MaxScope]) ∧
      (starts scopes).Pairwise (fun a b => strLt a b = true) ∧
      scopes.Pairwise notAfter := by
  have hg : Good scopes := (evalScopeStage_inv filter this.evaluationStages scopes h).1
  have hs : scopes.Pairwise ltS := evalScopeStage_sorted filter this.evaluationStages scopes h
  refine ⟨hg.2, starts_nodup scopes hs, fun x hx y hy => ?_, fun hm => ?_,
    starts_sorted scopes hs, notAfter_of_ltS_laminar scopes hs hg.1⟩
  · exact ⟨fun e => hg.1 y hy x hx (Cmp_neg_one_symm e), hg.1 x hx y hy⟩
  · refine eq_singleton_of_mem_iff scopes MaxScope (nodup_of_ltS scopes hs) fun x => ?_
    constructor
    · exact all_max_of_normalized hg.1 hm rfl x
    · rintro rfl
      exact hm

/-- On `(prefix(key, "xxx") && putTime >= 10) && (putTime <= 100 && prefix(key, "7/"))`
with the filter `".prefix"` the evaluator returns `[7/, xxx]`, a non-empty list. -/
theorem EvaluateScope_result_invariant_witness :
    EvaluateScope twoPrefixes prefixFilter = .ok [⟨[55, 47]⟩, ⟨[120, 120, 120]⟩] ∧
      ([⟨[55, 47]⟩, ⟨[120, 120, 120]⟩] : StringScopes) ≠ [] ∧
      (starts [⟨[55, 47]⟩, ⟨[120, 120, 120]⟩]).Pairwise (fun a b => strLt a b = true) :=
  ⟨rfl,
    (EvaluateScope_result_invariant twoPrefixes prefixFilter
      [⟨[55, 47]⟩, ⟨[120, 120, 120]⟩] rfl).1,
    (EvaluateScope_result_invariant twoPrefixes prefixFilter
      [⟨[55, 47]⟩, ⟨[120, 120, 120]⟩] rfl).2.2.2.2.1⟩

end Govaluate
